import Mathlib

/-!
Shallow embedding of the crypto matching engine core
(`src/Order.h`, `src/Trade.h`, `src/OrderBook.h`, `src/MatchingEngine.h`).

Prices and quantities (C++ `double`) are modelled as rationals: the core only
adds, subtracts, takes `min` and compares, and the zero-quantity test is applied
to differences of equal operands, so exact arithmetic is behaviourally faithful.

`std::map<double, std::list<Order>>` (asks, ascending) and
`std::map<double, std::list<Order>, std::greater>` (bids, descending) are
modelled as association lists sorted in iteration order.  The matching loops of
`OrderBook::matchBuyOrder` / `matchSellOrder` walk the opposite map from its
begin() and pop fully-filled heads; here this is split into a per-level queue
sweep (`matchBuyLevel`) and a per-level loop (`matchBuyOrder`), both structural
recursions with the same step semantics as the C++ `while` loop.
-/

namespace Crypto

/-- `enum class Side` from `src/Order.h`. -/
inductive Side where
  | Buy
  | Sell
deriving DecidableEq, Repr

/-- `enum class OrderType` from `src/Order.h`. -/
inductive OrderType where
  | Market
  | Limit
  | IOC
  | FOK
deriving DecidableEq, Repr

/-- `class Order` from `src/Order.h`: id, type, side, price, quantity, symbol.
The process-wide id counter lives in the transport layer; here the id is a
plain field supplied at construction. -/
structure Order where
  orderID : Nat
  type : OrderType
  side : Side
  price : ℚ
  quantity : ℚ
  symbol : String
deriving DecidableEq, Repr

/-- `Order::reduceQuantity`: subtract `amount` if `amount <= quantity_`,
otherwise a no-op. -/
def Order.reduceQuantity (o : Order) (amount : ℚ) : Order :=
  if amount ≤ o.quantity then { o with quantity := o.quantity - amount } else o

/-- `struct Trade` from `src/Trade.h` (the process-wide `tradeID` counter is
transport-level state and not needed by any book property). -/
structure Trade where
  makerOrderID : Nat
  takerOrderID : Nat
  price : ℚ
  quantity : ℚ
  aggressorSide : Side
  symbol : String
deriving DecidableEq, Repr

/-- One price level: map key paired with its FIFO `std::list<Order>`. -/
abbrev Level := ℚ × List Order

/-- One side of the book: levels listed in map-iteration order
(ascending price for asks, descending for bids). -/
abbrev HalfBook := List Level

/-- `class OrderBook`: the two private maps `bids_` and `asks_`. -/
structure OrderBook where
  bids : HalfBook
  asks : HalfBook
deriving DecidableEq, Repr

/-- The empty book (`OrderBook` default constructor). -/
def OrderBook.empty : OrderBook := ⟨[], []⟩

/-- Inner steps of the `matchBuyOrder` while-loop within one ask level:
each iteration takes the queue front, breaks for a Limit taker whose price is
below the resting order's, trades `min` quantities and pops a fully filled
head.  Returns the updated taker, the remaining queue and the trades emitted
at this level. -/
def matchBuyLevel (taker : Order) : List Order → Order × List Order × List Trade
  | [] => (taker, [], [])
  | maker :: queue =>
    if taker.quantity > 0 then
      if taker.type = OrderType.Limit ∧ taker.price < maker.price then
        (taker, maker :: queue, [])
      else
        let tradeQuantity := min taker.quantity maker.quantity
        let t : Trade :=
          ⟨maker.orderID, taker.orderID, maker.price, tradeQuantity, Side.Buy, maker.symbol⟩
        let maker' := maker.reduceQuantity tradeQuantity
        let taker' := taker.reduceQuantity tradeQuantity
        if maker'.quantity = 0 then
          let r := matchBuyLevel taker' queue
          (r.1, r.2.1, t :: r.2.2)
        else
          (taker', maker' :: queue, [t])
    else (taker, maker :: queue, [])

/-- `OrderBook::matchBuyOrder`: loop over ask levels from the best (first).
A level whose queue is exhausted while the taker still wants quantity is
erased and matching continues on the next level; otherwise the loop has
terminated inside the level (filled taker or price break). -/
def matchBuyOrder (buyOrder : Order) : HalfBook → Order × HalfBook × List Trade
  | [] => (buyOrder, [], [])
  | (price, queue) :: rest =>
    if buyOrder.quantity > 0 then
      let r := matchBuyLevel buyOrder queue
      if r.1.quantity > 0 ∧ r.2.1 = [] then
        let r2 := matchBuyOrder r.1 rest
        (r2.1, r2.2.1, r.2.2 ++ r2.2.2)
      else
        (r.1, if r.2.1 = [] then rest else (price, r.2.1) :: rest, r.2.2)
    else (buyOrder, (price, queue) :: rest, [])

/-- Inner steps of the `matchSellOrder` while-loop within one bid level
(mirror of `matchBuyLevel`: break when a Limit taker's price is above the
resting bid's). -/
def matchSellLevel (taker : Order) : List Order → Order × List Order × List Trade
  | [] => (taker, [], [])
  | maker :: queue =>
    if taker.quantity > 0 then
      if taker.type = OrderType.Limit ∧ taker.price > maker.price then
        (taker, maker :: queue, [])
      else
        let tradeQuantity := min taker.quantity maker.quantity
        let t : Trade :=
          ⟨maker.orderID, taker.orderID, maker.price, tradeQuantity, Side.Sell, maker.symbol⟩
        let maker' := maker.reduceQuantity tradeQuantity
        let taker' := taker.reduceQuantity tradeQuantity
        if maker'.quantity = 0 then
          let r := matchSellLevel taker' queue
          (r.1, r.2.1, t :: r.2.2)
        else
          (taker', maker' :: queue, [t])
    else (taker, maker :: queue, [])

/-- `OrderBook::matchSellOrder`: loop over bid levels from the best (first). -/
def matchSellOrder (sellOrder : Order) : HalfBook → Order × HalfBook × List Trade
  | [] => (sellOrder, [], [])
  | (price, queue) :: rest =>
    if sellOrder.quantity > 0 then
      let r := matchSellLevel sellOrder queue
      if r.1.quantity > 0 ∧ r.2.1 = [] then
        let r2 := matchSellOrder r.1 rest
        (r2.1, r2.2.1, r.2.2 ++ r2.2.2)
      else
        (r.1, if r.2.1 = [] then rest else (price, r.2.1) :: rest, r.2.2)
    else (sellOrder, (price, queue) :: rest, [])

/-- Insert an order at map key `p`, appending to the tail of the level's queue
and keeping the half-book in its iteration order given by `lt`
(`std::map::operator[]` followed by `push_back`). -/
def insertLevel (lt : ℚ → ℚ → Prop) [DecidableRel lt] (p : ℚ) (o : Order) :
    HalfBook → HalfBook
  | [] => [(p, [o])]
  | (q, queue) :: rest =>
    if lt p q then (p, [o]) :: (q, queue) :: rest
    else if p = q then (q, queue ++ [o]) :: rest
    else (q, queue) :: insertLevel lt p o rest

/-- `OrderBook::addLimitOrder`: rest the order at the tail of its price level
on its own side, creating the level if absent. -/
def addLimitOrder (book : OrderBook) (order : Order) : OrderBook :=
  if order.side = Side.Buy then
    { book with bids := insertLevel (· > ·) order.price order book.bids }
  else
    { book with asks := insertLevel (· < ·) order.price order book.asks }

/-- Quantity summed over a level's queue. -/
def queueQty (queue : List Order) : ℚ := (queue.map Order.quantity).sum

/-- The loop body of `OrderBook::canFOKfill`: walk the levels in iteration
order; a level is skipped (`continue`) when the order's type is `Limit` and
the level price fails the order's limit (note: for an actual FOK order this
test is never taken); after accumulating a level, return true as soon as the
accumulated quantity reaches the needed quantity; at the end compare once
more. -/
def fokScan (order : Order) (skip : ℚ → Prop) [DecidablePred skip] :
    HalfBook → ℚ → Bool
  | [], avail => avail ≥ order.quantity
  | (price, queue) :: rest, avail =>
    if skip price then fokScan order skip rest avail
    else
      let avail' := avail + queueQty queue
      if avail' ≥ order.quantity then true
      else fokScan order skip rest avail'

/-- `OrderBook::canFOKfill`: cumulative-quantity pre-check over the opposite
side, with the (type = Limit)-guarded price filter of the source. -/
def canFOKfill (book : OrderBook) (order : Order) : Bool :=
  if order.side = Side.Buy then
    fokScan order (fun p => order.type = OrderType.Limit ∧ p > order.price) book.asks 0
  else
    fokScan order (fun p => order.type = OrderType.Limit ∧ p < order.price) book.bids 0

/-- `OrderBook::processOrder`: FOK pre-check, side dispatch to the matching
loop, then rest a Limit residual. -/
def processOrder (book : OrderBook) (order : Order) : OrderBook × List Trade :=
  if order.type = OrderType.FOK ∧ ¬ canFOKfill book order then (book, [])
  else
    let step :=
      if order.side = Side.Buy then
        let r := matchBuyOrder order book.asks
        (r.1, { book with asks := r.2.1 }, r.2.2)
      else
        let r := matchSellOrder order book.bids
        (r.1, { book with bids := r.2.1 }, r.2.2)
    let book' :=
      if step.1.quantity > 0 ∧ step.1.type = OrderType.Limit then
        addLimitOrder step.2.1 step.1
      else step.2.1
    (book', step.2.2)

/-- Fold a sequence of ingested orders over one book starting empty
(per-symbol view of any ingest sequence). -/
def processSeq (orders : List Order) : OrderBook :=
  orders.foldl (fun b o => (processOrder b o).1) OrderBook.empty

/-- All resting orders of a half-book in iteration order: best level first,
FIFO within each level (the order in which the matching loop consumes them). -/
def flattenBook (hb : HalfBook) : List Order :=
  (hb.map Prod.snd).flatten

/-- Total resting quantity on a half-book. -/
def totalQty (hb : HalfBook) : ℚ :=
  ((hb.map Prod.snd).map queueQty).sum

/-- The FIFO queue at map key `p` (empty when the level is absent). -/
def findQueue (hb : HalfBook) (p : ℚ) : List Order :=
  (((hb.find? (fun l => l.1 = p)).map Prod.snd)).getD []

/-- `OrderBook::getBookDepthAsJson`: the top `n` levels of one side as
`[price_str, quantity_str]` pairs, aggregated quantity per level.
`std::to_string(double)` is modelled by `toString` on the rational. -/
def getBookDepthAsJson (n : Nat) (side : Side) (book : OrderBook) : List (String × String) :=
  ((if side = Side.Buy then book.bids else book.asks).take n).map
    (fun l => (toString l.1, toString (queueQty l.2)))

/-- Book lookup in `MatchingEngine::order_books_`; `operator[]` creates an
empty book for an unknown symbol. -/
def findBook (books : List (String × OrderBook)) (sym : String) : OrderBook :=
  ((books.find? (fun b => b.1 = sym)).map Prod.snd).getD OrderBook.empty

/-- Store the (possibly fresh) book back into the engine map, preserving the
identity-update semantics of `operator[]`. -/
def setBook (books : List (String × OrderBook)) (sym : String) (bk : OrderBook) :
    List (String × OrderBook) :=
  if books.any (fun b => b.1 = sym) then
    books.map (fun b => if b.1 = sym then (sym, bk) else b)
  else books ++ [(sym, bk)]

/-- Events emitted by one `MatchingEngine::process` call: the trade batch
(broadcast when non-empty) and the number of depth (`l2update`) broadcasts. -/
structure EngineEvents where
  trades : List Trade
  depthEvents : Nat
deriving DecidableEq, Repr

/-- `MatchingEngine::process`: resolve the book, capture the top-10 depth
serializations, process the order, and broadcast one `l2update` exactly when
the `dump()` of either side's depth changed.  `nlohmann::json::dump` is
injective on arrays of string pairs, so comparing the string-pair lists is the
same comparison. -/
def MatchingEngine.process (books : List (String × OrderBook)) (order : Order) :
    List (String × OrderBook) × EngineEvents :=
  let book := findBook books order.symbol
  let oldAsks := getBookDepthAsJson 10 Side.Sell book
  let oldBids := getBookDepthAsJson 10 Side.Buy book
  let r := processOrder book order
  let newAsks := getBookDepthAsJson 10 Side.Sell r.1
  let newBids := getBookDepthAsJson 10 Side.Buy r.1
  (setBook books order.symbol r.1,
   ⟨r.2, if oldAsks ≠ newAsks ∨ oldBids ≠ newBids then 1 else 0⟩)

/-- Property from the claim (not from the source): the trade batch walks the
given maker list in order; each trade carries that maker's id and resting
price, and its quantity is the minimum of the taker's remaining quantity at
that moment and the maker's resting quantity. -/
def tradesMatchMakers (takerQty : ℚ) : List Trade → List Order → Prop
  | [], _ => True
  | _ :: _, [] => False
  | t :: ts, m :: ms =>
      t.makerOrderID = m.orderID ∧ t.price = m.price ∧
      t.quantity = min takerQty m.quantity ∧
      tradesMatchMakers (takerQty - t.quantity) ts ms

/-! ### Basic lemmas on `Order.reduceQuantity` -/

@[simp]
theorem reduceQuantity_orderID (o : Order) (a : ℚ) :
    (o.reduceQuantity a).orderID = o.orderID := by
  unfold Order.reduceQuantity; split <;> rfl

@[simp]
theorem reduceQuantity_type (o : Order) (a : ℚ) :
    (o.reduceQuantity a).type = o.type := by
  unfold Order.reduceQuantity; split <;> rfl

@[simp]
theorem reduceQuantity_side (o : Order) (a : ℚ) :
    (o.reduceQuantity a).side = o.side := by
  unfold Order.reduceQuantity; split <;> rfl

@[simp]
theorem reduceQuantity_price (o : Order) (a : ℚ) :
    (o.reduceQuantity a).price = o.price := by
  unfold Order.reduceQuantity; split <;> rfl

@[simp]
theorem reduceQuantity_symbol (o : Order) (a : ℚ) :
    (o.reduceQuantity a).symbol = o.symbol := by
  unfold Order.reduceQuantity; split <;> rfl

theorem reduceQuantity_quantity (o : Order) (a : ℚ) (h : a ≤ o.quantity) :
    (o.reduceQuantity a).quantity = o.quantity - a := by
  unfold Order.reduceQuantity
  simp [h]

/-! ### Lemmas on the buy-side matching loop -/

theorem matchBuyLevel_taker_fields (taker : Order) (queue : List Order) :
    (matchBuyLevel taker queue).1.orderID = taker.orderID ∧
    (matchBuyLevel taker queue).1.type = taker.type ∧
    (matchBuyLevel taker queue).1.side = taker.side ∧
    (matchBuyLevel taker queue).1.price = taker.price ∧
    (matchBuyLevel taker queue).1.symbol = taker.symbol := by
  induction queue generalizing taker with
  | nil => simp [matchBuyLevel]
  | cons maker queue ih =>
    simp only [matchBuyLevel]
    split_ifs with h1 h2 h3
    · simp
    · simpa using ih (taker.reduceQuantity (min taker.quantity maker.quantity))
    · simp
    · simp

/-- The taker leaves the per-level sweep holding its original quantity minus
everything it traded there. -/
theorem matchBuyLevel_taker_qty (taker : Order) (queue : List Order) :
    (matchBuyLevel taker queue).1.quantity =
      taker.quantity - ((matchBuyLevel taker queue).2.2.map Trade.quantity).sum := by
  induction queue generalizing taker with
  | nil => simp [matchBuyLevel]
  | cons maker queue ih =>
    simp only [matchBuyLevel]
    split_ifs with h1 h2 h3
    · simp
    · have hred : (taker.reduceQuantity (min taker.quantity maker.quantity)).quantity =
          taker.quantity - min taker.quantity maker.quantity :=
        reduceQuantity_quantity _ _ (min_le_left _ _)
      simpa [hred, sub_sub] using ih (taker.reduceQuantity (min taker.quantity maker.quantity))
    · simp [reduceQuantity_quantity _ _ (min_le_left taker.quantity maker.quantity)]
    · simp

/-! ### Branch equations for the matching loops -/

theorem matchBuyLevel_stop (taker maker : Order) (queue : List Order)
    (h1 : ¬ taker.quantity > 0) :
    matchBuyLevel taker (maker :: queue) = (taker, maker :: queue, []) := by
  simp [matchBuyLevel, h1]

theorem matchBuyLevel_brk (taker maker : Order) (queue : List Order)
    (h1 : taker.quantity > 0) (h2 : taker.type = OrderType.Limit ∧ taker.price < maker.price) :
    matchBuyLevel taker (maker :: queue) = (taker, maker :: queue, []) := by
  simp [matchBuyLevel, h1, h2]

theorem matchBuyLevel_pop (taker maker : Order) (queue : List Order)
    (h1 : taker.quantity > 0) (h2 : ¬ (taker.type = OrderType.Limit ∧ taker.price < maker.price))
    (h3 : (maker.reduceQuantity (min taker.quantity maker.quantity)).quantity = 0) :
    matchBuyLevel taker (maker :: queue) =
      ((matchBuyLevel (taker.reduceQuantity (min taker.quantity maker.quantity)) queue).1,
       (matchBuyLevel (taker.reduceQuantity (min taker.quantity maker.quantity)) queue).2.1,
       ⟨maker.orderID, taker.orderID, maker.price, min taker.quantity maker.quantity,
        Side.Buy, maker.symbol⟩ ::
       (matchBuyLevel (taker.reduceQuantity (min taker.quantity maker.quantity)) queue).2.2) := by
  simp [matchBuyLevel, h1, h2, h3]

theorem matchBuyLevel_partfill (taker maker : Order) (queue : List Order)
    (h1 : taker.quantity > 0) (h2 : ¬ (taker.type = OrderType.Limit ∧ taker.price < maker.price))
    (h3 : ¬ (maker.reduceQuantity (min taker.quantity maker.quantity)).quantity = 0) :
    matchBuyLevel taker (maker :: queue) =
      (taker.reduceQuantity (min taker.quantity maker.quantity),
       maker.reduceQuantity (min taker.quantity maker.quantity) :: queue,
       [⟨maker.orderID, taker.orderID, maker.price, min taker.quantity maker.quantity,
         Side.Buy, maker.symbol⟩]) := by
  simp [matchBuyLevel, h1, h2, h3]

/-- In the partial-fill branch the taker is fully filled: its quantity reaches
exactly zero (otherwise the maker would have been consumed instead). -/
theorem matchBuyLevel_partial_filled (taker maker : Order)
    (h3 : ¬ (maker.reduceQuantity (min taker.quantity maker.quantity)).quantity = 0) :
    (taker.reduceQuantity (min taker.quantity maker.quantity)).quantity = 0 := by
  rw [reduceQuantity_quantity _ _ (min_le_left _ _)]
  rcases min_cases taker.quantity maker.quantity with ⟨hm, _⟩ | ⟨hm, _⟩
  · rw [hm]; ring
  · exact absurd (by rw [reduceQuantity_quantity _ _ (min_le_right _ _), hm]; ring) h3

theorem matchSellLevel_stop (taker maker : Order) (queue : List Order)
    (h1 : ¬ taker.quantity > 0) :
    matchSellLevel taker (maker :: queue) = (taker, maker :: queue, []) := by
  simp [matchSellLevel, h1]

theorem matchSellLevel_brk (taker maker : Order) (queue : List Order)
    (h1 : taker.quantity > 0) (h2 : taker.type = OrderType.Limit ∧ taker.price > maker.price) :
    matchSellLevel taker (maker :: queue) = (taker, maker :: queue, []) := by
  simp [matchSellLevel, h1, h2]

theorem matchSellLevel_pop (taker maker : Order) (queue : List Order)
    (h1 : taker.quantity > 0) (h2 : ¬ (taker.type = OrderType.Limit ∧ taker.price > maker.price))
    (h3 : (maker.reduceQuantity (min taker.quantity maker.quantity)).quantity = 0) :
    matchSellLevel taker (maker :: queue) =
      ((matchSellLevel (taker.reduceQuantity (min taker.quantity maker.quantity)) queue).1,
       (matchSellLevel (taker.reduceQuantity (min taker.quantity maker.quantity)) queue).2.1,
       ⟨maker.orderID, taker.orderID, maker.price, min taker.quantity maker.quantity,
        Side.Sell, maker.symbol⟩ ::
       (matchSellLevel (taker.reduceQuantity (min taker.quantity maker.quantity)) queue).2.2) := by
  simp [matchSellLevel, h1, h2, h3]

theorem matchSellLevel_partfill (taker maker : Order) (queue : List Order)
    (h1 : taker.quantity > 0) (h2 : ¬ (taker.type = OrderType.Limit ∧ taker.price > maker.price))
    (h3 : ¬ (maker.reduceQuantity (min taker.quantity maker.quantity)).quantity = 0) :
    matchSellLevel taker (maker :: queue) =
      (taker.reduceQuantity (min taker.quantity maker.quantity),
       maker.reduceQuantity (min taker.quantity maker.quantity) :: queue,
       [⟨maker.orderID, taker.orderID, maker.price, min taker.quantity maker.quantity,
         Side.Sell, maker.symbol⟩]) := by
  simp [matchSellLevel, h1, h2, h3]

theorem matchBuyOrder_stop (o : Order) (price : ℚ) (queue : List Order) (rest : HalfBook)
    (h1 : ¬ o.quantity > 0) :
    matchBuyOrder o ((price, queue) :: rest) = (o, (price, queue) :: rest, []) := by
  simp [matchBuyOrder, h1]

theorem matchBuyOrder_continue (o : Order) (price : ℚ) (queue : List Order) (rest : HalfBook)
    (h1 : o.quantity > 0)
    (h2 : (matchBuyLevel o queue).1.quantity > 0 ∧ (matchBuyLevel o queue).2.1 = []) :
    matchBuyOrder o ((price, queue) :: rest) =
      ((matchBuyOrder (matchBuyLevel o queue).1 rest).1,
       (matchBuyOrder (matchBuyLevel o queue).1 rest).2.1,
       (matchBuyLevel o queue).2.2 ++ (matchBuyOrder (matchBuyLevel o queue).1 rest).2.2) := by
  simp only [matchBuyOrder, if_pos h1, if_pos h2]

theorem matchBuyOrder_here (o : Order) (price : ℚ) (queue : List Order) (rest : HalfBook)
    (h1 : o.quantity > 0)
    (h2 : ¬ ((matchBuyLevel o queue).1.quantity > 0 ∧ (matchBuyLevel o queue).2.1 = [])) :
    matchBuyOrder o ((price, queue) :: rest) =
      ((matchBuyLevel o queue).1,
       if (matchBuyLevel o queue).2.1 = [] then rest
       else (price, (matchBuyLevel o queue).2.1) :: rest,
       (matchBuyLevel o queue).2.2) := by
  simp only [matchBuyOrder, if_pos h1, if_neg h2]

theorem matchSellOrder_stop (o : Order) (price : ℚ) (queue : List Order) (rest : HalfBook)
    (h1 : ¬ o.quantity > 0) :
    matchSellOrder o ((price, queue) :: rest) = (o, (price, queue) :: rest, []) := by
  simp [matchSellOrder, h1]

theorem matchSellOrder_continue (o : Order) (price : ℚ) (queue : List Order) (rest : HalfBook)
    (h1 : o.quantity > 0)
    (h2 : (matchSellLevel o queue).1.quantity > 0 ∧ (matchSellLevel o queue).2.1 = []) :
    matchSellOrder o ((price, queue) :: rest) =
      ((matchSellOrder (matchSellLevel o queue).1 rest).1,
       (matchSellOrder (matchSellLevel o queue).1 rest).2.1,
       (matchSellLevel o queue).2.2 ++ (matchSellOrder (matchSellLevel o queue).1 rest).2.2) := by
  simp only [matchSellOrder, if_pos h1, if_pos h2]

theorem matchSellOrder_here (o : Order) (price : ℚ) (queue : List Order) (rest : HalfBook)
    (h1 : o.quantity > 0)
    (h2 : ¬ ((matchSellLevel o queue).1.quantity > 0 ∧ (matchSellLevel o queue).2.1 = [])) :
    matchSellOrder o ((price, queue) :: rest) =
      ((matchSellLevel o queue).1,
       if (matchSellLevel o queue).2.1 = [] then rest
       else (price, (matchSellLevel o queue).2.1) :: rest,
       (matchSellLevel o queue).2.2) := by
  simp only [matchSellOrder, if_pos h1, if_neg h2]

/-! ### Structural lemmas on the per-level sweep (buy side) -/

@[simp]
theorem queueQty_nil : queueQty [] = 0 := rfl

@[simp]
theorem queueQty_cons (m : Order) (q : List Order) :
    queueQty (m :: q) = m.quantity + queueQty q := by
  simp [queueQty]

theorem queueQty_nonneg (q : List Order) (h : ∀ m ∈ q, 0 ≤ m.quantity) :
    0 ≤ queueQty q := by
  induction q with
  | nil => simp
  | cons m q ih =>
    have := h m (List.mem_cons_self _ _)
    have := ih (fun x hx => h x (List.mem_cons_of_mem _ hx))
    simp only [queueQty_cons]
    linarith

/-- A non-Limit taker never stops for price: if it leaves the sweep hungry,
the queue is exhausted. -/
theorem matchBuyLevel_nonlimit_hungry (taker : Order) (queue : List Order)
    (ht : taker.type ≠ OrderType.Limit) (hq : 0 < (matchBuyLevel taker queue).1.quantity) :
    (matchBuyLevel taker queue).2.1 = [] := by
  induction queue generalizing taker with
  | nil => simp [matchBuyLevel]
  | cons maker queue ih =>
    by_cases h1 : taker.quantity > 0
    · by_cases h2 : taker.type = OrderType.Limit ∧ taker.price < maker.price
      · exact absurd h2.1 ht
      · by_cases h3 : (maker.reduceQuantity (min taker.quantity maker.quantity)).quantity = 0
        · rw [matchBuyLevel_pop taker maker queue h1 h2 h3] at hq ⊢
          exact ih _ (by simpa using ht) hq
        · rw [matchBuyLevel_partfill taker maker queue h1 h2 h3] at hq
          exact absurd (matchBuyLevel_partial_filled taker maker h3) hq.ne'
    · rw [matchBuyLevel_stop taker maker queue h1] at hq
      exact absurd hq h1

/-- If the taker leaves the sweep hungry with orders still queued, it stopped
at the price break: it is a Limit order priced below the queue front, and
that front is one of the original resting orders. -/
theorem matchBuyLevel_break (taker : Order) (queue : List Order)
    (hq : 0 < (matchBuyLevel taker queue).1.quantity)
    (hne : (matchBuyLevel taker queue).2.1 ≠ []) :
    taker.type = OrderType.Limit ∧
    ∃ m ∈ queue, (matchBuyLevel taker queue).2.1.head? = some m ∧ taker.price < m.price := by
  induction queue generalizing taker with
  | nil => simp [matchBuyLevel] at hne
  | cons maker queue ih =>
    by_cases h1 : taker.quantity > 0
    · by_cases h2 : taker.type = OrderType.Limit ∧ taker.price < maker.price
      · rw [matchBuyLevel_brk taker maker queue h1 h2]
        exact ⟨h2.1, maker, List.mem_cons_self _ _, rfl, h2.2⟩
      · by_cases h3 : (maker.reduceQuantity (min taker.quantity maker.quantity)).quantity = 0
        · rw [matchBuyLevel_pop taker maker queue h1 h2 h3] at hq hne ⊢
          obtain ⟨hty, m, hm, hh, hp⟩ := ih _ hq hne
          exact ⟨by simpa using hty, m, List.mem_cons_of_mem _ hm, hh, by simpa using hp⟩
        · rw [matchBuyLevel_partfill taker maker queue h1 h2 h3] at hq
          exact absurd (matchBuyLevel_partial_filled taker maker h3) hq.ne'
    · rw [matchBuyLevel_stop taker maker queue h1] at hq
      exact absurd hq h1

/-- Every order left in the queue descends from an original resting order,
keeping its price and type (`reduceQuantity` touches only the quantity). -/
theorem matchBuyLevel_queue_fields (taker : Order) (queue : List Order) :
    ∀ o' ∈ (matchBuyLevel taker queue).2.1,
      ∃ o ∈ queue, o'.price = o.price ∧ o'.type = o.type := by
  induction queue generalizing taker with
  | nil => simp [matchBuyLevel]
  | cons maker queue ih =>
    by_cases h1 : taker.quantity > 0
    · by_cases h2 : taker.type = OrderType.Limit ∧ taker.price < maker.price
      · rw [matchBuyLevel_brk taker maker queue h1 h2]
        exact fun o' ho' => ⟨o', ho', rfl, rfl⟩
      · by_cases h3 : (maker.reduceQuantity (min taker.quantity maker.quantity)).quantity = 0
        · rw [matchBuyLevel_pop taker maker queue h1 h2 h3]
          intro o' ho'
          obtain ⟨o, ho, hp, hty⟩ := ih _ o' ho'
          exact ⟨o, List.mem_cons_of_mem _ ho, hp, hty⟩
        · rw [matchBuyLevel_partfill taker maker queue h1 h2 h3]
          intro o' ho'
          rcases List.mem_cons.mp ho' with rfl | ho'
          · exact ⟨maker, List.mem_cons_self _ _, by simp, by simp⟩
          · exact ⟨o', List.mem_cons_of_mem _ ho', rfl, rfl⟩
    · rw [matchBuyLevel_stop taker maker queue h1]
      exact fun o' ho' => ⟨o', ho', rfl, rfl⟩

/-- When the sweep exhausts the queue, it emitted exactly one trade per
resting order. -/
theorem matchBuyLevel_full_len (taker : Order) (queue : List Order)
    (h : (matchBuyLevel taker queue).2.1 = []) :
    (matchBuyLevel taker queue).2.2.length = queue.length := by
  induction queue generalizing taker with
  | nil => simp [matchBuyLevel]
  | cons maker queue ih =>
    by_cases h1 : taker.quantity > 0
    · by_cases h2 : taker.type = OrderType.Limit ∧ taker.price < maker.price
      · rw [matchBuyLevel_brk taker maker queue h1 h2] at h
        exact absurd h (by simp)
      · by_cases h3 : (maker.reduceQuantity (min taker.quantity maker.quantity)).quantity = 0
        · rw [matchBuyLevel_pop taker maker queue h1 h2 h3] at h ⊢
          simp [ih _ h]
        · rw [matchBuyLevel_partfill taker maker queue h1 h2 h3] at h
          exact absurd h (by simp)
    · rw [matchBuyLevel_stop taker maker queue h1] at h
      exact absurd h (by simp)

/-- The per-level trade batch consumes the queue front-to-back at maker
prices, trading `min(remaining taker, resting maker)` each step. -/
theorem matchBuyLevel_spec (taker : Order) (queue : List Order) :
    tradesMatchMakers taker.quantity (matchBuyLevel taker queue).2.2 queue := by
  induction queue generalizing taker with
  | nil => simp [matchBuyLevel, tradesMatchMakers]
  | cons maker queue ih =>
    by_cases h1 : taker.quantity > 0
    · by_cases h2 : taker.type = OrderType.Limit ∧ taker.price < maker.price
      · rw [matchBuyLevel_brk taker maker queue h1 h2]
        simp [tradesMatchMakers]
      · by_cases h3 : (maker.reduceQuantity (min taker.quantity maker.quantity)).quantity = 0
        · rw [matchBuyLevel_pop taker maker queue h1 h2 h3]
          refine ⟨rfl, rfl, rfl, ?_⟩
          have hred : (taker.reduceQuantity (min taker.quantity maker.quantity)).quantity =
              taker.quantity - min taker.quantity maker.quantity :=
            reduceQuantity_quantity _ _ (min_le_left _ _)
          have := ih (taker.reduceQuantity (min taker.quantity maker.quantity))
          rwa [hred] at this
        · rw [matchBuyLevel_partfill taker maker queue h1 h2 h3]
          exact ⟨rfl, rfl, rfl, trivial⟩
    · rw [matchBuyLevel_stop taker maker queue h1]
      simp [tradesMatchMakers]

/-- Total quantity swept from one level by a non-Limit taker:
`min(taker, whole level)`. -/
theorem matchBuyLevel_sum_nonlimit (taker : Order) (queue : List Order)
    (ht : taker.type ≠ OrderType.Limit) (h0 : 0 ≤ taker.quantity)
    (hqs : ∀ m ∈ queue, 0 ≤ m.quantity) :
    ((matchBuyLevel taker queue).2.2.map Trade.quantity).sum =
      min taker.quantity (queueQty queue) := by
  induction queue generalizing taker with
  | nil => simp [matchBuyLevel, min_eq_right h0]
  | cons maker queue ih =>
    have hQ : 0 ≤ queueQty queue :=
      queueQty_nonneg _ (fun m hm => hqs m (List.mem_cons_of_mem _ hm))
    by_cases h1 : taker.quantity > 0
    · by_cases h2 : taker.type = OrderType.Limit ∧ taker.price < maker.price
      · exact absurd h2.1 ht
      · by_cases h3 : (maker.reduceQuantity (min taker.quantity maker.quantity)).quantity = 0
        · rw [matchBuyLevel_pop taker maker queue h1 h2 h3]
          have hmin : min taker.quantity maker.quantity = maker.quantity := by
            have := h3
            rw [reduceQuantity_quantity _ _ (min_le_right _ _)] at this
            linarith
          have hle : maker.quantity ≤ taker.quantity := hmin ▸ min_le_left _ _
          have hred : (taker.reduceQuantity (min taker.quantity maker.quantity)).quantity =
              taker.quantity - maker.quantity := by
            rw [reduceQuantity_quantity _ _ (min_le_left _ _), hmin]
          have hih := ih (taker.reduceQuantity (min taker.quantity maker.quantity))
            (by simpa using ht) (by rw [hred]; linarith)
            (fun m hm => hqs m (List.mem_cons_of_mem _ hm))
          rw [hred] at hih
          simp only [List.map_cons, List.sum_cons, queueQty_cons]
          rw [hih, hmin]
          have key := min_add_add_right (taker.quantity - maker.quantity) (queueQty queue)
            maker.quantity
          rw [sub_add_cancel] at key
          rw [show maker.quantity + queueQty queue = queueQty queue + maker.quantity from
            add_comm _ _, key]
          ring
        · rw [matchBuyLevel_partfill taker maker queue h1 h2 h3]
          have hmin : min taker.quantity maker.quantity = taker.quantity := by
            rcases min_cases taker.quantity maker.quantity with ⟨hm, _⟩ | ⟨hm, _⟩
            · exact hm
            · exact absurd (by rw [reduceQuantity_quantity _ _ (min_le_right _ _), hm]; ring) h3
          have hle : taker.quantity ≤ maker.quantity := hmin ▸ min_le_right _ _
          simp only [List.map_cons, List.sum_cons, List.map_nil, List.sum_nil, hmin,
            queueQty_cons]
          rw [min_eq_left (by linarith)]
          ring
    · have h0' : taker.quantity = 0 := le_antisymm (not_lt.mp h1) h0
      rw [matchBuyLevel_stop taker maker queue h1]
      have hQQ : 0 ≤ queueQty (maker :: queue) := queueQty_nonneg _ hqs
      simp only [List.map_nil, List.sum_nil]
      rw [h0', min_eq_left hQQ]

/-! ### Structural lemmas on the per-level sweep (sell side) -/

theorem matchSellLevel_taker_fields (taker : Order) (queue : List Order) :
    (matchSellLevel taker queue).1.orderID = taker.orderID ∧
    (matchSellLevel taker queue).1.type = taker.type ∧
    (matchSellLevel taker queue).1.side = taker.side ∧
    (matchSellLevel taker queue).1.price = taker.price ∧
    (matchSellLevel taker queue).1.symbol = taker.symbol := by
  induction queue generalizing taker with
  | nil => simp [matchSellLevel]
  | cons maker queue ih =>
    simp only [matchSellLevel]
    split_ifs with h1 h2 h3
    · simp
    · simpa using ih (taker.reduceQuantity (min taker.quantity maker.quantity))
    · simp
    · simp

theorem matchSellLevel_taker_qty (taker : Order) (queue : List Order) :
    (matchSellLevel taker queue).1.quantity =
      taker.quantity - ((matchSellLevel taker queue).2.2.map Trade.quantity).sum := by
  induction queue generalizing taker with
  | nil => simp [matchSellLevel]
  | cons maker queue ih =>
    simp only [matchSellLevel]
    split_ifs with h1 h2 h3
    · simp
    · have hred : (taker.reduceQuantity (min taker.quantity maker.quantity)).quantity =
          taker.quantity - min taker.quantity maker.quantity :=
        reduceQuantity_quantity _ _ (min_le_left _ _)
      simpa [hred, sub_sub] using ih (taker.reduceQuantity (min taker.quantity maker.quantity))
    · simp [reduceQuantity_quantity _ _ (min_le_left taker.quantity maker.quantity)]
    · simp

theorem matchSellLevel_nonlimit_hungry (taker : Order) (queue : List Order)
    (ht : taker.type ≠ OrderType.Limit) (hq : 0 < (matchSellLevel taker queue).1.quantity) :
    (matchSellLevel taker queue).2.1 = [] := by
  induction queue generalizing taker with
  | nil => simp [matchSellLevel]
  | cons maker queue ih =>
    by_cases h1 : taker.quantity > 0
    · by_cases h2 : taker.type = OrderType.Limit ∧ taker.price > maker.price
      · exact absurd h2.1 ht
      · by_cases h3 : (maker.reduceQuantity (min taker.quantity maker.quantity)).quantity = 0
        · rw [matchSellLevel_pop taker maker queue h1 h2 h3] at hq ⊢
          exact ih _ (by simpa using ht) hq
        · rw [matchSellLevel_partfill taker maker queue h1 h2 h3] at hq
          exact absurd (matchBuyLevel_partial_filled taker maker h3) hq.ne'
    · rw [matchSellLevel_stop taker maker queue h1] at hq
      exact absurd hq h1

theorem matchSellLevel_break (taker : Order) (queue : List Order)
    (hq : 0 < (matchSellLevel taker queue).1.quantity)
    (hne : (matchSellLevel taker queue).2.1 ≠ []) :
    taker.type = OrderType.Limit ∧
    ∃ m ∈ queue, (matchSellLevel taker queue).2.1.head? = some m ∧ m.price < taker.price := by
  induction queue generalizing taker with
  | nil => simp [matchSellLevel] at hne
  | cons maker queue ih =>
    by_cases h1 : taker.quantity > 0
    · by_cases h2 : taker.type = OrderType.Limit ∧ taker.price > maker.price
      · rw [matchSellLevel_brk taker maker queue h1 h2]
        exact ⟨h2.1, maker, List.mem_cons_self _ _, rfl, h2.2⟩
      · by_cases h3 : (maker.reduceQuantity (min taker.quantity maker.quantity)).quantity = 0
        · rw [matchSellLevel_pop taker maker queue h1 h2 h3] at hq hne ⊢
          obtain ⟨hty, m, hm, hh, hp⟩ := ih _ hq hne
          exact ⟨by simpa using hty, m, List.mem_cons_of_mem _ hm, hh, by simpa using hp⟩
        · rw [matchSellLevel_partfill taker maker queue h1 h2 h3] at hq
          exact absurd (matchBuyLevel_partial_filled taker maker h3) hq.ne'
    · rw [matchSellLevel_stop taker maker queue h1] at hq
      exact absurd hq h1

theorem matchSellLevel_queue_fields (taker : Order) (queue : List Order) :
    ∀ o' ∈ (matchSellLevel taker queue).2.1,
      ∃ o ∈ queue, o'.price = o.price ∧ o'.type = o.type := by
  induction queue generalizing taker with
  | nil => simp [matchSellLevel]
  | cons maker queue ih =>
    by_cases h1 : taker.quantity > 0
    · by_cases h2 : taker.type = OrderType.Limit ∧ taker.price > maker.price
      · rw [matchSellLevel_brk taker maker queue h1 h2]
        exact fun o' ho' => ⟨o', ho', rfl, rfl⟩
      · by_cases h3 : (maker.reduceQuantity (min taker.quantity maker.quantity)).quantity = 0
        · rw [matchSellLevel_pop taker maker queue h1 h2 h3]
          intro o' ho'
          obtain ⟨o, ho, hp, hty⟩ := ih _ o' ho'
          exact ⟨o, List.mem_cons_of_mem _ ho, hp, hty⟩
        · rw [matchSellLevel_partfill taker maker queue h1 h2 h3]
          intro o' ho'
          rcases List.mem_cons.mp ho' with rfl | ho'
          · exact ⟨maker, List.mem_cons_self _ _, by simp, by simp⟩
          · exact ⟨o', List.mem_cons_of_mem _ ho', rfl, rfl⟩
    · rw [matchSellLevel_stop taker maker queue h1]
      exact fun o' ho' => ⟨o', ho', rfl, rfl⟩

theorem matchSellLevel_full_len (taker : Order) (queue : List Order)
    (h : (matchSellLevel taker queue).2.1 = []) :
    (matchSellLevel taker queue).2.2.length = queue.length := by
  induction queue generalizing taker with
  | nil => simp [matchSellLevel]
  | cons maker queue ih =>
    by_cases h1 : taker.quantity > 0
    · by_cases h2 : taker.type = OrderType.Limit ∧ taker.price > maker.price
      · rw [matchSellLevel_brk taker maker queue h1 h2] at h
        exact absurd h (by simp)
      · by_cases h3 : (maker.reduceQuantity (min taker.quantity maker.quantity)).quantity = 0
        · rw [matchSellLevel_pop taker maker queue h1 h2 h3] at h ⊢
          simp [ih _ h]
        · rw [matchSellLevel_partfill taker maker queue h1 h2 h3] at h
          exact absurd h (by simp)
    · rw [matchSellLevel_stop taker maker queue h1] at h
      exact absurd h (by simp)

theorem matchSellLevel_spec (taker : Order) (queue : List Order) :
    tradesMatchMakers taker.quantity (matchSellLevel taker queue).2.2 queue := by
  induction queue generalizing taker with
  | nil => simp [matchSellLevel, tradesMatchMakers]
  | cons maker queue ih =>
    by_cases h1 : taker.quantity > 0
    · by_cases h2 : taker.type = OrderType.Limit ∧ taker.price > maker.price
      · rw [matchSellLevel_brk taker maker queue h1 h2]
        simp [tradesMatchMakers]
      · by_cases h3 : (maker.reduceQuantity (min taker.quantity maker.quantity)).quantity = 0
        · rw [matchSellLevel_pop taker maker queue h1 h2 h3]
          refine ⟨rfl, rfl, rfl, ?_⟩
          have hred : (taker.reduceQuantity (min taker.quantity maker.quantity)).quantity =
              taker.quantity - min taker.quantity maker.quantity :=
            reduceQuantity_quantity _ _ (min_le_left _ _)
          have := ih (taker.reduceQuantity (min taker.quantity maker.quantity))
          rwa [hred] at this
        · rw [matchSellLevel_partfill taker maker queue h1 h2 h3]
          exact ⟨rfl, rfl, rfl, trivial⟩
    · rw [matchSellLevel_stop taker maker queue h1]
      simp [tradesMatchMakers]

theorem matchSellLevel_sum_nonlimit (taker : Order) (queue : List Order)
    (ht : taker.type ≠ OrderType.Limit) (h0 : 0 ≤ taker.quantity)
    (hqs : ∀ m ∈ queue, 0 ≤ m.quantity) :
    ((matchSellLevel taker queue).2.2.map Trade.quantity).sum =
      min taker.quantity (queueQty queue) := by
  induction queue generalizing taker with
  | nil => simp [matchSellLevel, min_eq_right h0]
  | cons maker queue ih =>
    by_cases h1 : taker.quantity > 0
    · by_cases h2 : taker.type = OrderType.Limit ∧ taker.price > maker.price
      · exact absurd h2.1 ht
      · by_cases h3 : (maker.reduceQuantity (min taker.quantity maker.quantity)).quantity = 0
        · rw [matchSellLevel_pop taker maker queue h1 h2 h3]
          have hmin : min taker.quantity maker.quantity = maker.quantity := by
            have := h3
            rw [reduceQuantity_quantity _ _ (min_le_right _ _)] at this
            linarith
          have hred : (taker.reduceQuantity (min taker.quantity maker.quantity)).quantity =
              taker.quantity - maker.quantity := by
            rw [reduceQuantity_quantity _ _ (min_le_left _ _), hmin]
          have hih := ih (taker.reduceQuantity (min taker.quantity maker.quantity))
            (by simpa using ht)
            (by rw [hred]; have := hmin ▸ min_le_left taker.quantity maker.quantity; linarith)
            (fun m hm => hqs m (List.mem_cons_of_mem _ hm))
          rw [hred] at hih
          simp only [List.map_cons, List.sum_cons, queueQty_cons]
          rw [hih, hmin]
          have key := min_add_add_right (taker.quantity - maker.quantity) (queueQty queue)
            maker.quantity
          rw [sub_add_cancel] at key
          rw [show maker.quantity + queueQty queue = queueQty queue + maker.quantity from
            add_comm _ _, key]
          ring
        · rw [matchSellLevel_partfill taker maker queue h1 h2 h3]
          have hmin : min taker.quantity maker.quantity = taker.quantity := by
            rcases min_cases taker.quantity maker.quantity with ⟨hm, _⟩ | ⟨hm, _⟩
            · exact hm
            · exact absurd (by rw [reduceQuantity_quantity _ _ (min_le_right _ _), hm]; ring) h3
          have hle : taker.quantity ≤ maker.quantity := hmin ▸ min_le_right _ _
          have hQ : 0 ≤ queueQty queue :=
            queueQty_nonneg _ (fun m hm => hqs m (List.mem_cons_of_mem _ hm))
          simp only [List.map_cons, List.sum_cons, List.map_nil, List.sum_nil, hmin,
            queueQty_cons]
          rw [min_eq_left (by linarith)]
          ring
    · have h0' : taker.quantity = 0 := le_antisymm (not_lt.mp h1) h0
      rw [matchSellLevel_stop taker maker queue h1]
      have hQQ : 0 ≤ queueQty (maker :: queue) := queueQty_nonneg _ hqs
      simp only [List.map_nil, List.sum_nil]
      rw [h0', min_eq_left hQQ]

/-! ### Helper lemmas for the trade-batch characterization -/

@[simp]
theorem flattenBook_nil : flattenBook [] = [] := rfl

@[simp]
theorem flattenBook_cons (l : Level) (rest : HalfBook) :
    flattenBook (l :: rest) = l.2 ++ flattenBook rest := by
  simp [flattenBook]

@[simp]
theorem totalQty_nil : totalQty [] = 0 := rfl

@[simp]
theorem totalQty_cons (l : Level) (rest : HalfBook) :
    totalQty (l :: rest) = queueQty l.2 + totalQty rest := by
  simp [totalQty, queueQty]

theorem totalQty_nonneg (hb : HalfBook) (h : ∀ l ∈ hb, ∀ m ∈ l.2, 0 ≤ m.quantity) :
    0 ≤ totalQty hb := by
  induction hb with
  | nil => simp
  | cons l rest ih =>
    have h1 : 0 ≤ queueQty l.2 := queueQty_nonneg _ (h l (List.mem_cons_self _ _))
    have h2 : 0 ≤ totalQty rest := ih (fun x hx => h x (List.mem_cons_of_mem _ hx))
    simp only [totalQty_cons]
    linarith

theorem tradesMatchMakers_extend (tq : ℚ) (ts : List Trade) (ms ms' : List Order)
    (h : tradesMatchMakers tq ts ms) :
    tradesMatchMakers tq ts (ms ++ ms') := by
  induction ts generalizing tq ms with
  | nil => trivial
  | cons t ts ih =>
    cases ms with
    | nil => exact absurd h (by simp [tradesMatchMakers])
    | cons m ms =>
      obtain ⟨a, b, c, d⟩ := h
      exact ⟨a, b, c, ih _ _ d⟩

theorem tradesMatchMakers_append (tq : ℚ) (ts ts' : List Trade) (ms ms' : List Order)
    (h : tradesMatchMakers tq ts ms) (hlen : ts.length = ms.length)
    (h' : tradesMatchMakers (tq - (ts.map Trade.quantity).sum) ts' ms') :
    tradesMatchMakers tq (ts ++ ts') (ms ++ ms') := by
  induction ts generalizing tq ms with
  | nil =>
    cases ms with
    | nil => simpa using h'
    | cons m ms => simp at hlen
  | cons t ts ih =>
    cases ms with
    | nil => simp at hlen
    | cons m ms =>
      obtain ⟨hid, hp, hq, hrest⟩ := h
      refine ⟨hid, hp, hq, ?_⟩
      exact ih _ _ hrest (by simpa using hlen) (by simpa [sub_sub] using h')

/-! ### Book-level lemmas on `matchBuyOrder` -/

theorem matchBuyOrder_taker_fields (o : Order) (asks : HalfBook) :
    (matchBuyOrder o asks).1.orderID = o.orderID ∧
    (matchBuyOrder o asks).1.type = o.type ∧
    (matchBuyOrder o asks).1.side = o.side ∧
    (matchBuyOrder o asks).1.price = o.price ∧
    (matchBuyOrder o asks).1.symbol = o.symbol := by
  induction asks generalizing o with
  | nil => simp [matchBuyOrder]
  | cons l rest ih =>
    obtain ⟨price, queue⟩ := l
    by_cases h1 : o.quantity > 0
    · by_cases h2 : (matchBuyLevel o queue).1.quantity > 0 ∧ (matchBuyLevel o queue).2.1 = []
      · rw [matchBuyOrder_continue o price queue rest h1 h2]
        obtain ⟨a, b, c, d, e⟩ := ih (matchBuyLevel o queue).1
        obtain ⟨a', b', c', d', e'⟩ := matchBuyLevel_taker_fields o queue
        exact ⟨a.trans a', b.trans b', c.trans c', d.trans d', e.trans e'⟩
      · rw [matchBuyOrder_here o price queue rest h1 h2]
        exact matchBuyLevel_taker_fields o queue
    · rw [matchBuyOrder_stop o price queue rest h1]
      exact ⟨rfl, rfl, rfl, rfl, rfl⟩

theorem matchBuyOrder_taker_qty (o : Order) (asks : HalfBook) :
    (matchBuyOrder o asks).1.quantity =
      o.quantity - ((matchBuyOrder o asks).2.2.map Trade.quantity).sum := by
  induction asks generalizing o with
  | nil => simp [matchBuyOrder]
  | cons l rest ih =>
    obtain ⟨price, queue⟩ := l
    by_cases h1 : o.quantity > 0
    · by_cases h2 : (matchBuyLevel o queue).1.quantity > 0 ∧ (matchBuyLevel o queue).2.1 = []
      · rw [matchBuyOrder_continue o price queue rest h1 h2]
        have hlev := matchBuyLevel_taker_qty o queue
        have hrec := ih (matchBuyLevel o queue).1
        simp only [List.map_append, List.sum_append]
        rw [hrec, hlev]
        ring
      · rw [matchBuyOrder_here o price queue rest h1 h2]
        exact matchBuyLevel_taker_qty o queue
    · rw [matchBuyOrder_stop o price queue rest h1]
      simp

theorem matchBuyOrder_nonpos (o : Order) (asks : HalfBook) (h : ¬ o.quantity > 0) :
    matchBuyOrder o asks = (o, asks, []) := by
  cases asks with
  | nil => simp [matchBuyOrder]
  | cons l rest =>
    obtain ⟨price, queue⟩ := l
    exact matchBuyOrder_stop o price queue rest h

theorem matchBuyOrder_nonlimit_hungry (o : Order) (asks : HalfBook)
    (ht : o.type ≠ OrderType.Limit) (hq : 0 < (matchBuyOrder o asks).1.quantity) :
    (matchBuyOrder o asks).2.1 = [] := by
  induction asks generalizing o with
  | nil => simp [matchBuyOrder]
  | cons l rest ih =>
    obtain ⟨price, queue⟩ := l
    by_cases h1 : o.quantity > 0
    · by_cases h2 : (matchBuyLevel o queue).1.quantity > 0 ∧ (matchBuyLevel o queue).2.1 = []
      · rw [matchBuyOrder_continue o price queue rest h1 h2] at hq ⊢
        exact ih _ (by rw [(matchBuyLevel_taker_fields o queue).2.1]; exact ht) hq
      · rw [matchBuyOrder_here o price queue rest h1 h2] at hq ⊢
        rcases not_and_or.mp h2 with h2' | h2'
        · exact absurd hq h2'
        · have hqe := matchBuyLevel_nonlimit_hungry o queue ht hq
          exact absurd hqe h2'
    · rw [matchBuyOrder_stop o price queue rest h1] at hq
      exact absurd hq h1

/-- The level keys remaining after a buy sweep are a tail segment of the
original ask keys (levels are only consumed from the front). -/
theorem matchBuyOrder_keys_suffix (o : Order) (asks : HalfBook) :
    ∃ pre, asks.map Prod.fst = pre ++ (matchBuyOrder o asks).2.1.map Prod.fst := by
  induction asks generalizing o with
  | nil => exact ⟨[], by simp [matchBuyOrder]⟩
  | cons l rest ih =>
    obtain ⟨price, queue⟩ := l
    by_cases h1 : o.quantity > 0
    · by_cases h2 : (matchBuyLevel o queue).1.quantity > 0 ∧ (matchBuyLevel o queue).2.1 = []
      · rw [matchBuyOrder_continue o price queue rest h1 h2]
        obtain ⟨pre, hpre⟩ := ih (matchBuyLevel o queue).1
        exact ⟨price :: pre, by simp [hpre]⟩
      · rw [matchBuyOrder_here o price queue rest h1 h2]
        by_cases hq : (matchBuyLevel o queue).2.1 = []
        · exact ⟨[price], by simp [hq]⟩
        · exact ⟨[], by simp [hq]⟩
    · rw [matchBuyOrder_stop o price queue rest h1]
      exact ⟨[], by simp⟩

/-- Every level left after a buy sweep keeps its key, and its orders descend
from resting orders of the same original level (price and type intact). -/
theorem matchBuyOrder_levels (o : Order) (asks : HalfBook) :
    ∀ l' ∈ (matchBuyOrder o asks).2.1, ∃ l ∈ asks, l'.1 = l.1 ∧
      ∀ o' ∈ l'.2, ∃ m ∈ l.2, o'.price = m.price ∧ o'.type = m.type := by
  induction asks generalizing o with
  | nil => simp [matchBuyOrder]
  | cons l rest ih =>
    obtain ⟨price, queue⟩ := l
    by_cases h1 : o.quantity > 0
    · by_cases h2 : (matchBuyLevel o queue).1.quantity > 0 ∧ (matchBuyLevel o queue).2.1 = []
      · rw [matchBuyOrder_continue o price queue rest h1 h2]
        intro l' hl'
        obtain ⟨l, hl, he, hf⟩ := ih _ l' hl'
        exact ⟨l, List.mem_cons_of_mem _ hl, he, hf⟩
      · rw [matchBuyOrder_here o price queue rest h1 h2]
        by_cases hq : (matchBuyLevel o queue).2.1 = []
        · simp only [hq, if_pos]
          intro l' hl'
          exact ⟨l', List.mem_cons_of_mem _ hl', rfl, fun o' ho' => ⟨o', ho', rfl, rfl⟩⟩
        · simp only [hq, if_neg, not_false_iff]
          intro l' hl'
          rcases List.mem_cons.mp hl' with rfl | hl'
          · exact ⟨(price, queue), List.mem_cons_self _ _, rfl,
              matchBuyLevel_queue_fields o queue⟩
          · exact ⟨l', List.mem_cons_of_mem _ hl', rfl, fun o' ho' => ⟨o', ho', rfl, rfl⟩⟩
    · rw [matchBuyOrder_stop o price queue rest h1]
      intro l' hl'
      exact ⟨l', hl', rfl, fun o' ho' => ⟨o', ho', rfl, rfl⟩⟩

/-- A hungry taker with a non-empty remaining opposite side stopped at the
price break: it is a Limit order priced strictly below the first remaining
level (assuming all orders carry their level's price). -/
theorem matchBuyOrder_break (o : Order) (asks : HalfBook)
    (hpm : ∀ l ∈ asks, ∀ m ∈ l.2, m.price = l.1)
    (hq : 0 < (matchBuyOrder o asks).1.quantity) :
    ∀ l' tail, (matchBuyOrder o asks).2.1 = l' :: tail →
      o.type = OrderType.Limit ∧ o.price < l'.1 := by
  induction asks generalizing o with
  | nil =>
    intro l' tail h
    simp [matchBuyOrder] at h
  | cons l rest ih =>
    obtain ⟨price, queue⟩ := l
    by_cases h1 : o.quantity > 0
    · by_cases h2 : (matchBuyLevel o queue).1.quantity > 0 ∧ (matchBuyLevel o queue).2.1 = []
      · rw [matchBuyOrder_continue o price queue rest h1 h2] at hq ⊢
        intro l' tail h
        obtain ⟨hty, hpr⟩ := ih (matchBuyLevel o queue).1
          (fun x hx => hpm x (List.mem_cons_of_mem _ hx)) hq l' tail h
        obtain ⟨_, hty', _, hpr', _⟩ := matchBuyLevel_taker_fields o queue
        exact ⟨hty' ▸ hty, hpr' ▸ hpr⟩
      · rw [matchBuyOrder_here o price queue rest h1 h2] at hq ⊢
        by_cases hqe : (matchBuyLevel o queue).2.1 = []
        · exact absurd ⟨hq, hqe⟩ h2
        · obtain ⟨hty, m, hm, hhead, hlt⟩ := matchBuyLevel_break o queue hq hqe
          intro l' tail h
          simp only [hqe, if_neg, not_false_iff] at h
          cases h
          have : m.price = price := hpm (price, queue) (List.mem_cons_self _ _) m hm
          refine ⟨hty, ?_⟩
          simpa [this] using hlt
    · rw [matchBuyOrder_stop o price queue rest h1] at hq
      exact absurd hq h1

/-- The trade batch of a buy sweep walks the flattened opposite side in
price-time order, trading maker price and `min` quantity at each step. -/
theorem matchBuyOrder_spec (o : Order) (asks : HalfBook) :
    tradesMatchMakers o.quantity (matchBuyOrder o asks).2.2 (flattenBook asks) := by
  induction asks generalizing o with
  | nil => simp [matchBuyOrder, tradesMatchMakers]
  | cons l rest ih =>
    obtain ⟨price, queue⟩ := l
    by_cases h1 : o.quantity > 0
    · by_cases h2 : (matchBuyLevel o queue).1.quantity > 0 ∧ (matchBuyLevel o queue).2.1 = []
      · rw [matchBuyOrder_continue o price queue rest h1 h2]
        simp only [flattenBook_cons]
        refine tradesMatchMakers_append _ _ _ _ _ (matchBuyLevel_spec o queue)
          (matchBuyLevel_full_len o queue h2.2) ?_
        have := ih (matchBuyLevel o queue).1
        rwa [matchBuyLevel_taker_qty o queue] at this
      · rw [matchBuyOrder_here o price queue rest h1 h2]
        simp only [flattenBook_cons]
        exact tradesMatchMakers_extend _ _ _ _ (matchBuyLevel_spec o queue)
    · rw [matchBuyOrder_stop o price queue rest h1]
      simp [tradesMatchMakers]

/-- A non-Limit buy taker sweeps `min(its quantity, whole opposite side)`. -/
theorem matchBuyOrder_sum_nonlimit (o : Order) (asks : HalfBook)
    (ht : o.type ≠ OrderType.Limit) (h0 : 0 ≤ o.quantity)
    (hqs : ∀ l ∈ asks, ∀ m ∈ l.2, 0 ≤ m.quantity) :
    ((matchBuyOrder o asks).2.2.map Trade.quantity).sum =
      min o.quantity (totalQty asks) := by
  induction asks generalizing o with
  | nil => simp [matchBuyOrder, min_eq_right h0]
  | cons l rest ih =>
    obtain ⟨price, queue⟩ := l
    have hqs1 : ∀ m ∈ queue, 0 ≤ m.quantity := hqs (price, queue) (List.mem_cons_self _ _)
    have hqs2 : ∀ l ∈ rest, ∀ m ∈ l.2, 0 ≤ m.quantity :=
      fun x hx => hqs x (List.mem_cons_of_mem _ hx)
    have hQ : 0 ≤ queueQty queue := queueQty_nonneg _ hqs1
    have hR : 0 ≤ totalQty rest := totalQty_nonneg _ hqs2
    have hsum := matchBuyLevel_sum_nonlimit o queue ht h0 hqs1
    have hqty := matchBuyLevel_taker_qty o queue
    by_cases h1 : o.quantity > 0
    · by_cases h2 : (matchBuyLevel o queue).1.quantity > 0 ∧ (matchBuyLevel o queue).2.1 = []
      · rw [matchBuyOrder_continue o price queue rest h1 h2]
        have hmin : min o.quantity (queueQty queue) = queueQty queue := by
          rcases min_cases o.quantity (queueQty queue) with ⟨hm, _⟩ | ⟨hm, _⟩
          · exfalso
            have := h2.1
            rw [hqty, hsum, hm] at this
            simp at this
          · exact hm
        have hrec := ih (matchBuyLevel o queue).1
          ((matchBuyLevel_taker_fields o queue).2.1 ▸ ht) (le_of_lt h2.1) hqs2
        rw [hqty, hsum, hmin] at hrec
        simp only [List.map_append, List.sum_append, totalQty_cons]
        rw [hsum, hmin, hrec]
        have hle : queueQty queue ≤ o.quantity := by
          have := h2.1
          rw [hqty, hsum, hmin] at this
          linarith
        have key := min_add_add_right (o.quantity - queueQty queue) (totalQty rest)
          (queueQty queue)
        rw [sub_add_cancel] at key
        rw [show queueQty queue + totalQty rest = totalQty rest + queueQty queue from
          add_comm _ _, key]
        ring
      · rw [matchBuyOrder_here o price queue rest h1 h2]
        have hge : 0 ≤ (matchBuyLevel o queue).1.quantity := by
          rw [hqty, hsum]
          have := min_le_left o.quantity (queueQty queue)
          linarith
        rcases eq_or_lt_of_le hge with hz | hpos
        · have hz' : min o.quantity (queueQty queue) = o.quantity := by
            rw [hqty, hsum] at hz
            linarith
          have hle : o.quantity ≤ queueQty queue := hz' ▸ min_le_right _ _
          rw [hsum, hz']
          simp only [totalQty_cons]
          rw [min_eq_left (by linarith)]
        · exact absurd ⟨hpos, matchBuyLevel_nonlimit_hungry o queue ht hpos⟩ h2
    · have h0' : o.quantity = 0 := le_antisymm (not_lt.mp h1) h0
      rw [matchBuyOrder_stop o price queue rest h1]
      have hT : 0 ≤ totalQty ((price, queue) :: rest) :=
        totalQty_nonneg _ hqs
      simp only [List.map_nil, List.sum_nil]
      rw [h0', min_eq_left hT]

/-! ### Book-level lemmas on `matchSellOrder` -/

theorem matchSellOrder_taker_fields (o : Order) (bids : HalfBook) :
    (matchSellOrder o bids).1.orderID = o.orderID ∧
    (matchSellOrder o bids).1.type = o.type ∧
    (matchSellOrder o bids).1.side = o.side ∧
    (matchSellOrder o bids).1.price = o.price ∧
    (matchSellOrder o bids).1.symbol = o.symbol := by
  induction bids generalizing o with
  | nil => simp [matchSellOrder]
  | cons l rest ih =>
    obtain ⟨price, queue⟩ := l
    by_cases h1 : o.quantity > 0
    · by_cases h2 : (matchSellLevel o queue).1.quantity > 0 ∧ (matchSellLevel o queue).2.1 = []
      · rw [matchSellOrder_continue o price queue rest h1 h2]
        obtain ⟨a, b, c, d, e⟩ := ih (matchSellLevel o queue).1
        obtain ⟨a', b', c', d', e'⟩ := matchSellLevel_taker_fields o queue
        exact ⟨a.trans a', b.trans b', c.trans c', d.trans d', e.trans e'⟩
      · rw [matchSellOrder_here o price queue rest h1 h2]
        exact matchSellLevel_taker_fields o queue
    · rw [matchSellOrder_stop o price queue rest h1]
      exact ⟨rfl, rfl, rfl, rfl, rfl⟩

theorem matchSellOrder_taker_qty (o : Order) (bids : HalfBook) :
    (matchSellOrder o bids).1.quantity =
      o.quantity - ((matchSellOrder o bids).2.2.map Trade.quantity).sum := by
  induction bids generalizing o with
  | nil => simp [matchSellOrder]
  | cons l rest ih =>
    obtain ⟨price, queue⟩ := l
    by_cases h1 : o.quantity > 0
    · by_cases h2 : (matchSellLevel o queue).1.quantity > 0 ∧ (matchSellLevel o queue).2.1 = []
      · rw [matchSellOrder_continue o price queue rest h1 h2]
        have hlev := matchSellLevel_taker_qty o queue
        have hrec := ih (matchSellLevel o queue).1
        simp only [List.map_append, List.sum_append]
        rw [hrec, hlev]
        ring
      · rw [matchSellOrder_here o price queue rest h1 h2]
        exact matchSellLevel_taker_qty o queue
    · rw [matchSellOrder_stop o price queue rest h1]
      simp

theorem matchSellOrder_nonpos (o : Order) (bids : HalfBook) (h : ¬ o.quantity > 0) :
    matchSellOrder o bids = (o, bids, []) := by
  cases bids with
  | nil => simp [matchSellOrder]
  | cons l rest =>
    obtain ⟨price, queue⟩ := l
    exact matchSellOrder_stop o price queue rest h

theorem matchSellOrder_nonlimit_hungry (o : Order) (bids : HalfBook)
    (ht : o.type ≠ OrderType.Limit) (hq : 0 < (matchSellOrder o bids).1.quantity) :
    (matchSellOrder o bids).2.1 = [] := by
  induction bids generalizing o with
  | nil => simp [matchSellOrder]
  | cons l rest ih =>
    obtain ⟨price, queue⟩ := l
    by_cases h1 : o.quantity > 0
    · by_cases h2 : (matchSellLevel o queue).1.quantity > 0 ∧ (matchSellLevel o queue).2.1 = []
      · rw [matchSellOrder_continue o price queue rest h1 h2] at hq ⊢
        exact ih _ (by rw [(matchSellLevel_taker_fields o queue).2.1]; exact ht) hq
      · rw [matchSellOrder_here o price queue rest h1 h2] at hq ⊢
        rcases not_and_or.mp h2 with h2' | h2'
        · exact absurd hq h2'
        · exact absurd (matchSellLevel_nonlimit_hungry o queue ht hq) h2'
    · rw [matchSellOrder_stop o price queue rest h1] at hq
      exact absurd hq h1

theorem matchSellOrder_keys_suffix (o : Order) (bids : HalfBook) :
    ∃ pre, bids.map Prod.fst = pre ++ (matchSellOrder o bids).2.1.map Prod.fst := by
  induction bids generalizing o with
  | nil => exact ⟨[], by simp [matchSellOrder]⟩
  | cons l rest ih =>
    obtain ⟨price, queue⟩ := l
    by_cases h1 : o.quantity > 0
    · by_cases h2 : (matchSellLevel o queue).1.quantity > 0 ∧ (matchSellLevel o queue).2.1 = []
      · rw [matchSellOrder_continue o price queue rest h1 h2]
        obtain ⟨pre, hpre⟩ := ih (matchSellLevel o queue).1
        exact ⟨price :: pre, by simp [hpre]⟩
      · rw [matchSellOrder_here o price queue rest h1 h2]
        by_cases hq : (matchSellLevel o queue).2.1 = []
        · exact ⟨[price], by simp [hq]⟩
        · exact ⟨[], by simp [hq]⟩
    · rw [matchSellOrder_stop o price queue rest h1]
      exact ⟨[], by simp⟩

theorem matchSellOrder_levels (o : Order) (bids : HalfBook) :
    ∀ l' ∈ (matchSellOrder o bids).2.1, ∃ l ∈ bids, l'.1 = l.1 ∧
      ∀ o' ∈ l'.2, ∃ m ∈ l.2, o'.price = m.price ∧ o'.type = m.type := by
  induction bids generalizing o with
  | nil => simp [matchSellOrder]
  | cons l rest ih =>
    obtain ⟨price, queue⟩ := l
    by_cases h1 : o.quantity > 0
    · by_cases h2 : (matchSellLevel o queue).1.quantity > 0 ∧ (matchSellLevel o queue).2.1 = []
      · rw [matchSellOrder_continue o price queue rest h1 h2]
        intro l' hl'
        obtain ⟨l, hl, he, hf⟩ := ih _ l' hl'
        exact ⟨l, List.mem_cons_of_mem _ hl, he, hf⟩
      · rw [matchSellOrder_here o price queue rest h1 h2]
        by_cases hq : (matchSellLevel o queue).2.1 = []
        · simp only [hq, if_pos]
          intro l' hl'
          exact ⟨l', List.mem_cons_of_mem _ hl', rfl, fun o' ho' => ⟨o', ho', rfl, rfl⟩⟩
        · simp only [hq, if_neg, not_false_iff]
          intro l' hl'
          rcases List.mem_cons.mp hl' with rfl | hl'
          · exact ⟨(price, queue), List.mem_cons_self _ _, rfl,
              matchSellLevel_queue_fields o queue⟩
          · exact ⟨l', List.mem_cons_of_mem _ hl', rfl, fun o' ho' => ⟨o', ho', rfl, rfl⟩⟩
    · rw [matchSellOrder_stop o price queue rest h1]
      intro l' hl'
      exact ⟨l', hl', rfl, fun o' ho' => ⟨o', ho', rfl, rfl⟩⟩

theorem matchSellOrder_break (o : Order) (bids : HalfBook)
    (hpm : ∀ l ∈ bids, ∀ m ∈ l.2, m.price = l.1)
    (hq : 0 < (matchSellOrder o bids).1.quantity) :
    ∀ l' tail, (matchSellOrder o bids).2.1 = l' :: tail →
      o.type = OrderType.Limit ∧ l'.1 < o.price := by
  induction bids generalizing o with
  | nil =>
    intro l' tail h
    simp [matchSellOrder] at h
  | cons l rest ih =>
    obtain ⟨price, queue⟩ := l
    by_cases h1 : o.quantity > 0
    · by_cases h2 : (matchSellLevel o queue).1.quantity > 0 ∧ (matchSellLevel o queue).2.1 = []
      · rw [matchSellOrder_continue o price queue rest h1 h2] at hq ⊢
        intro l' tail h
        obtain ⟨hty, hpr⟩ := ih (matchSellLevel o queue).1
          (fun x hx => hpm x (List.mem_cons_of_mem _ hx)) hq l' tail h
        obtain ⟨_, hty', _, hpr', _⟩ := matchSellLevel_taker_fields o queue
        exact ⟨hty' ▸ hty, hpr' ▸ hpr⟩
      · rw [matchSellOrder_here o price queue rest h1 h2] at hq ⊢
        by_cases hqe : (matchSellLevel o queue).2.1 = []
        · exact absurd ⟨hq, hqe⟩ h2
        · obtain ⟨hty, m, hm, hhead, hlt⟩ := matchSellLevel_break o queue hq hqe
          intro l' tail h
          simp only [hqe, if_neg, not_false_iff] at h
          cases h
          have hmp : m.price = price := hpm (price, queue) (List.mem_cons_self _ _) m hm
          refine ⟨hty, ?_⟩
          simpa [hmp] using hlt
    · rw [matchSellOrder_stop o price queue rest h1] at hq
      exact absurd hq h1

theorem matchSellOrder_spec (o : Order) (bids : HalfBook) :
    tradesMatchMakers o.quantity (matchSellOrder o bids).2.2 (flattenBook bids) := by
  induction bids generalizing o with
  | nil => simp [matchSellOrder, tradesMatchMakers]
  | cons l rest ih =>
    obtain ⟨price, queue⟩ := l
    by_cases h1 : o.quantity > 0
    · by_cases h2 : (matchSellLevel o queue).1.quantity > 0 ∧ (matchSellLevel o queue).2.1 = []
      · rw [matchSellOrder_continue o price queue rest h1 h2]
        simp only [flattenBook_cons]
        refine tradesMatchMakers_append _ _ _ _ _ (matchSellLevel_spec o queue)
          (matchSellLevel_full_len o queue h2.2) ?_
        have := ih (matchSellLevel o queue).1
        rwa [matchSellLevel_taker_qty o queue] at this
      · rw [matchSellOrder_here o price queue rest h1 h2]
        simp only [flattenBook_cons]
        exact tradesMatchMakers_extend _ _ _ _ (matchSellLevel_spec o queue)
    · rw [matchSellOrder_stop o price queue rest h1]
      simp [tradesMatchMakers]

theorem matchSellOrder_sum_nonlimit (o : Order) (bids : HalfBook)
    (ht : o.type ≠ OrderType.Limit) (h0 : 0 ≤ o.quantity)
    (hqs : ∀ l ∈ bids, ∀ m ∈ l.2, 0 ≤ m.quantity) :
    ((matchSellOrder o bids).2.2.map Trade.quantity).sum =
      min o.quantity (totalQty bids) := by
  induction bids generalizing o with
  | nil => simp [matchSellOrder, min_eq_right h0]
  | cons l rest ih =>
    obtain ⟨price, queue⟩ := l
    have hqs1 : ∀ m ∈ queue, 0 ≤ m.quantity := hqs (price, queue) (List.mem_cons_self _ _)
    have hqs2 : ∀ l ∈ rest, ∀ m ∈ l.2, 0 ≤ m.quantity :=
      fun x hx => hqs x (List.mem_cons_of_mem _ hx)
    have hQ : 0 ≤ queueQty queue := queueQty_nonneg _ hqs1
    have hR : 0 ≤ totalQty rest := totalQty_nonneg _ hqs2
    have hsum := matchSellLevel_sum_nonlimit o queue ht h0 hqs1
    have hqty := matchSellLevel_taker_qty o queue
    by_cases h1 : o.quantity > 0
    · by_cases h2 : (matchSellLevel o queue).1.quantity > 0 ∧ (matchSellLevel o queue).2.1 = []
      · rw [matchSellOrder_continue o price queue rest h1 h2]
        have hmin : min o.quantity (queueQty queue) = queueQty queue := by
          rcases min_cases o.quantity (queueQty queue) with ⟨hm, _⟩ | ⟨hm, _⟩
          · exfalso
            have := h2.1
            rw [hqty, hsum, hm] at this
            simp at this
          · exact hm
        have hrec := ih (matchSellLevel o queue).1
          ((matchSellLevel_taker_fields o queue).2.1 ▸ ht) (le_of_lt h2.1) hqs2
        rw [hqty, hsum, hmin] at hrec
        simp only [List.map_append, List.sum_append, totalQty_cons]
        rw [hsum, hmin, hrec]
        have key := min_add_add_right (o.quantity - queueQty queue) (totalQty rest)
          (queueQty queue)
        rw [sub_add_cancel] at key
        rw [show queueQty queue + totalQty rest = totalQty rest + queueQty queue from
          add_comm _ _, key]
        ring
      · rw [matchSellOrder_here o price queue rest h1 h2]
        have hge : 0 ≤ (matchSellLevel o queue).1.quantity := by
          rw [hqty, hsum]
          have := min_le_left o.quantity (queueQty queue)
          linarith
        rcases eq_or_lt_of_le hge with hz | hpos
        · have hz' : min o.quantity (queueQty queue) = o.quantity := by
            rw [hqty, hsum] at hz
            linarith
          have hle : o.quantity ≤ queueQty queue := hz' ▸ min_le_right _ _
          rw [hsum, hz']
          simp only [totalQty_cons]
          rw [min_eq_left (by linarith)]
        · exact absurd ⟨hpos, matchSellLevel_nonlimit_hungry o queue ht hpos⟩ h2
    · have h0' : o.quantity = 0 := le_antisymm (not_lt.mp h1) h0
      rw [matchSellOrder_stop o price queue rest h1]
      have hT : 0 ≤ totalQty ((price, queue) :: rest) :=
        totalQty_nonneg _ hqs
      simp only [List.map_nil, List.sum_nil]
      rw [h0', min_eq_left hT]

/-! ### Lemmas on `insertLevel` (resting a Limit residual) -/

theorem insertLevel_keys (lt : ℚ → ℚ → Prop) [DecidableRel lt] (p : ℚ) (o : Order)
    (hb : HalfBook) :
    ∀ l ∈ insertLevel lt p o hb, l.1 = p ∨ l.1 ∈ hb.map Prod.fst := by
  induction hb with
  | nil =>
    intro l hl
    simp only [insertLevel, List.mem_singleton] at hl
    subst hl
    exact Or.inl rfl
  | cons hd rest ih =>
    obtain ⟨q, queue⟩ := hd
    intro l hl
    simp only [insertLevel] at hl
    split_ifs at hl with hlt heq
    · rcases List.mem_cons.mp hl with rfl | hl
      · exact Or.inl rfl
      · exact Or.inr (List.mem_map_of_mem Prod.fst hl)
    · rcases List.mem_cons.mp hl with rfl | hl
      · refine Or.inr ?_
        rw [List.map_cons]
        exact List.mem_cons_self _ _
      · refine Or.inr ?_
        rw [List.map_cons]
        exact List.mem_cons_of_mem _ (List.mem_map_of_mem Prod.fst hl)
    · rcases List.mem_cons.mp hl with rfl | hl
      · refine Or.inr ?_
        rw [List.map_cons]
        exact List.mem_cons_self _ _
      · rcases ih l hl with h | h
        · exact Or.inl h
        · refine Or.inr ?_
          rw [List.map_cons]
          exact List.mem_cons_of_mem _ h

theorem insertLevel_orders (lt : ℚ → ℚ → Prop) [DecidableRel lt] (p : ℚ) (o : Order)
    (hb : HalfBook) :
    ∀ l ∈ insertLevel lt p o hb, ∀ m ∈ l.2, m = o ∨ ∃ l' ∈ hb, m ∈ l'.2 := by
  induction hb with
  | nil =>
    intro l hl m hm
    simp only [insertLevel, List.mem_singleton] at hl
    subst hl
    simp only [List.mem_singleton] at hm
    exact Or.inl hm
  | cons hd rest ih =>
    obtain ⟨q, queue⟩ := hd
    intro l hl m hm
    simp only [insertLevel] at hl
    split_ifs at hl with hlt heq
    · rcases List.mem_cons.mp hl with rfl | hl
      · simp only [List.mem_singleton] at hm
        exact Or.inl hm
      · exact Or.inr ⟨l, hl, hm⟩
    · rcases List.mem_cons.mp hl with rfl | hl
      · rcases List.mem_append.mp hm with hm | hm
        · exact Or.inr ⟨(q, queue), List.mem_cons_self _ _, hm⟩
        · simp only [List.mem_singleton] at hm
          exact Or.inl hm
      · exact Or.inr ⟨l, List.mem_cons_of_mem _ hl, hm⟩
    · rcases List.mem_cons.mp hl with rfl | hl
      · exact Or.inr ⟨(q, queue), List.mem_cons_self _ _, hm⟩
      · rcases ih l hl m hm with h | ⟨l', hl', hm'⟩
        · exact Or.inl h
        · exact Or.inr ⟨l', List.mem_cons_of_mem _ hl', hm'⟩

theorem insertLevel_prices (lt : ℚ → ℚ → Prop) [DecidableRel lt] (p : ℚ) (o : Order)
    (hb : HalfBook) (hpm : ∀ l ∈ hb, ∀ m ∈ l.2, m.price = l.1) (hop : o.price = p) :
    ∀ l ∈ insertLevel lt p o hb, ∀ m ∈ l.2, m.price = l.1 := by
  induction hb with
  | nil =>
    intro l hl m hm
    simp only [insertLevel, List.mem_singleton] at hl
    subst hl
    simp only [List.mem_singleton] at hm
    subst hm
    exact hop
  | cons hd rest ih =>
    obtain ⟨q, queue⟩ := hd
    intro l hl m hm
    simp only [insertLevel] at hl
    split_ifs at hl with hlt heq
    · rcases List.mem_cons.mp hl with rfl | hl
      · simp only [List.mem_singleton] at hm
        subst hm
        exact hop
      · exact hpm l hl m hm
    · rcases List.mem_cons.mp hl with rfl | hl
      · rcases List.mem_append.mp hm with hm | hm
        · exact hpm (q, queue) (List.mem_cons_self _ _) m hm
        · simp only [List.mem_singleton] at hm
          subst hm
          exact hop.trans heq
      · exact hpm l (List.mem_cons_of_mem _ hl) m hm
    · rcases List.mem_cons.mp hl with rfl | hl
      · exact hpm (q, queue) (List.mem_cons_self _ _) m hm
      · exact ih (fun x hx => hpm x (List.mem_cons_of_mem _ hx)) l hl m hm

theorem insertLevel_pairwise (lt : ℚ → ℚ → Prop) [DecidableRel lt]
    (htrans : ∀ a b c, lt a b → lt b c → lt a c)
    (htri : ∀ a b, ¬ lt a b → a ≠ b → lt b a)
    (p : ℚ) (o : Order) (hb : HalfBook)
    (hs : hb.Pairwise (fun x y => lt x.1 y.1)) :
    (insertLevel lt p o hb).Pairwise (fun x y => lt x.1 y.1) := by
  induction hb with
  | nil => simp [insertLevel]
  | cons hd rest ih =>
    obtain ⟨q, queue⟩ := hd
    rcases List.pairwise_cons.mp hs with ⟨hq, hrest⟩
    simp only [insertLevel]
    split_ifs with hlt heq
    · refine List.Pairwise.cons ?_ hs
      intro l hl
      rcases List.mem_cons.mp hl with rfl | hl
      · exact hlt
      · exact htrans _ _ _ hlt (hq l hl)
    · exact List.Pairwise.cons hq hrest
    · refine List.Pairwise.cons ?_ (ih hrest)
      intro l hl
      rcases insertLevel_keys lt p o rest l hl with h | h
      · rw [h]
        exact htri _ _ hlt heq
      · obtain ⟨l', hl', he⟩ := List.mem_map.mp h
        exact he ▸ hq l' hl'

theorem insertLevel_findQueue (lt : ℚ → ℚ → Prop) [DecidableRel lt]
    (htrans : ∀ a b c, lt a b → lt b c → lt a c)
    (hirr : ∀ a, ¬ lt a a)
    (p : ℚ) (o : Order) (hb : HalfBook)
    (hs : hb.Pairwise (fun x y => lt x.1 y.1)) :
    findQueue (insertLevel lt p o hb) p = findQueue hb p ++ [o] := by
  induction hb with
  | nil => simp [insertLevel, findQueue, List.find?]
  | cons hd rest ih =>
    obtain ⟨q, queue⟩ := hd
    rcases List.pairwise_cons.mp hs with ⟨hq, hrest⟩
    simp only [insertLevel]
    split_ifs with hlt heq
    · have hnone : ∀ l ∈ (q, queue) :: rest, ¬ (l.1 = p) := by
        intro l hl
        rcases List.mem_cons.mp hl with rfl | hl
        · intro he
          rw [show ((q : ℚ), queue).1 = q from rfl] at he
          rw [he] at hlt
          exact hirr p hlt
        · intro he
          have h1 : lt p l.1 := htrans _ _ _ hlt (hq l hl)
          rw [he] at h1
          exact hirr p h1
      have hz : findQueue ((q, queue) :: rest) p = [] := by
        simp only [findQueue]
        rw [List.find?_eq_none.mpr (by intro x hx; simpa using hnone x hx)]
        rfl
      rw [hz]
      simp [findQueue, List.find?]
    · subst heq
      simp [findQueue, List.find?]
    · have hqp : ¬ (q = p) := fun he => heq he.symm
      have h1 : List.find? (fun l : Level => decide (l.1 = p))
          ((q, queue) :: insertLevel lt p o rest) =
          List.find? (fun l : Level => decide (l.1 = p)) (insertLevel lt p o rest) :=
        List.find?_cons_of_neg _ (by simpa using hqp)
      have h2 : List.find? (fun l : Level => decide (l.1 = p)) ((q, queue) :: rest) =
          List.find? (fun l : Level => decide (l.1 = p)) rest :=
        List.find?_cons_of_neg _ (by simpa using hqp)
      simp only [findQueue] at ih ⊢
      rw [h1, h2]
      exact ih hrest

/-! ### Lemmas on the FOK pre-check -/

theorem fokScan_nil (o : Order) (skip : ℚ → Prop) [DecidablePred skip] (acc : ℚ) :
    fokScan o skip [] acc = decide (acc ≥ o.quantity) := rfl

theorem fokScan_noskip (o : Order) (skip : ℚ → Prop) [DecidablePred skip]
    (hb : HalfBook) (acc : ℚ) (hns : ∀ p, ¬ skip p)
    (hq : ∀ l ∈ hb, ∀ m ∈ l.2, 0 ≤ m.quantity) :
    fokScan o skip hb acc = true ↔ o.quantity ≤ acc + totalQty hb := by
  induction hb generalizing acc with
  | nil => simp [fokScan, ge_iff_le]
  | cons hd rest ih =>
    obtain ⟨price, queue⟩ := hd
    have hR : 0 ≤ totalQty rest :=
      totalQty_nonneg _ (fun x hx => hq x (List.mem_cons_of_mem _ hx))
    simp only [fokScan, if_neg (hns price)]
    split_ifs with hge
    · simp only [true_iff]
      simp only [totalQty_cons]
      have : o.quantity ≤ acc + queueQty queue := hge
      linarith
    · rw [ih (acc + queueQty queue) (fun x hx => hq x (List.mem_cons_of_mem _ hx))]
      simp only [totalQty_cons]
      constructor <;> intro h <;> linarith

/-- For an actual FOK order the Limit-guarded price filter in `canFOKfill`
never fires, so the pre-check compares the order quantity against the whole
opposite side. -/
theorem canFOKfill_fok (book : OrderBook) (o : Order) (ho : o.type = OrderType.FOK)
    (hq : ∀ l ∈ (if o.side = Side.Buy then book.asks else book.bids),
      ∀ m ∈ l.2, 0 ≤ m.quantity) :
    (canFOKfill book o = true ↔
      o.quantity ≤ totalQty (if o.side = Side.Buy then book.asks else book.bids)) := by
  have hns1 : ∀ p : ℚ, ¬ (o.type = OrderType.Limit ∧ p > o.price) := by
    intro p hc
    rw [ho] at hc
    exact absurd hc.1 (by simp)
  have hns2 : ∀ p : ℚ, ¬ (o.type = OrderType.Limit ∧ p < o.price) := by
    intro p hc
    rw [ho] at hc
    exact absurd hc.1 (by simp)
  by_cases hside : o.side = Side.Buy
  · simp only [canFOKfill, if_pos hside] at *
    rw [fokScan_noskip o _ book.asks 0 hns1 (by simpa [hside] using hq)]
    simp [hside]
  · simp only [canFOKfill, if_neg hside] at *
    rw [fokScan_noskip o _ book.bids 0 hns2 (by simpa [hside] using hq)]
    simp [hside]

/-! ### Branch equations for `processOrder` -/

theorem processOrder_gate (book : OrderBook) (o : Order)
    (h : o.type = OrderType.FOK ∧ ¬ canFOKfill book o) :
    processOrder book o = (book, []) := by
  simp [processOrder, h]

theorem processOrder_buy_eq (book : OrderBook) (o : Order) (ho : o.side = Side.Buy)
    (hgate : ¬ (o.type = OrderType.FOK ∧ ¬ canFOKfill book o)) :
    processOrder book o =
      (if (matchBuyOrder o book.asks).1.quantity > 0 ∧
          (matchBuyOrder o book.asks).1.type = OrderType.Limit then
        addLimitOrder { book with asks := (matchBuyOrder o book.asks).2.1 }
          (matchBuyOrder o book.asks).1
      else { book with asks := (matchBuyOrder o book.asks).2.1 },
      (matchBuyOrder o book.asks).2.2) := by
  simp only [processOrder, ho]
  rw [if_neg hgate]
  simp

theorem processOrder_sell_eq (book : OrderBook) (o : Order) (ho : o.side = Side.Sell)
    (hgate : ¬ (o.type = OrderType.FOK ∧ ¬ canFOKfill book o)) :
    processOrder book o =
      (if (matchSellOrder o book.bids).1.quantity > 0 ∧
          (matchSellOrder o book.bids).1.type = OrderType.Limit then
        addLimitOrder { book with bids := (matchSellOrder o book.bids).2.1 }
          (matchSellOrder o book.bids).1
      else { book with bids := (matchSellOrder o book.bids).2.1 },
      (matchSellOrder o book.bids).2.2) := by
  have hns : ¬ o.side = Side.Buy := by
    rw [ho]
    simp
  simp only [processOrder]
  rw [if_neg hgate]
  simp [hns]

/-! ### The book invariant and its preservation -/

/-- Well-formedness of a book, as maintained between ingest calls: each side
is in strict map-iteration order, every resting order carries its level's key
as price and is a Limit order, and the book is not crossed. -/
structure BookInv (b : OrderBook) : Prop where
  asksSorted : b.asks.Pairwise (fun x y => x.1 < y.1)
  bidsSorted : b.bids.Pairwise (fun x y => x.1 > y.1)
  asksPrices : ∀ l ∈ b.asks, ∀ m ∈ l.2, m.price = l.1
  bidsPrices : ∀ l ∈ b.bids, ∀ m ∈ l.2, m.price = l.1
  asksLimit : ∀ l ∈ b.asks, ∀ m ∈ l.2, m.type = OrderType.Limit
  bidsLimit : ∀ l ∈ b.bids, ∀ m ∈ l.2, m.type = OrderType.Limit
  noncross : ∀ lb ∈ b.bids, ∀ la ∈ b.asks, lb.1 < la.1

theorem bookInv_empty : BookInv OrderBook.empty := by
  constructor <;> simp [OrderBook.empty]

/-- Pairwise order on keys survives taking the tail segment left by a sweep. -/
theorem pairwise_of_keys_suffix {R : ℚ → ℚ → Prop} (hb hb' : HalfBook) (pre : List ℚ)
    (hkeys : hb.map Prod.fst = pre ++ hb'.map Prod.fst)
    (hs : hb.Pairwise (fun x y => R x.1 y.1)) :
    hb'.Pairwise (fun x y => R x.1 y.1) := by
  have h1 : (hb.map Prod.fst).Pairwise R := (List.pairwise_map).mpr hs
  rw [hkeys] at h1
  exact (List.pairwise_map).mp (List.Pairwise.sublist (List.sublist_append_right pre _) h1)

theorem processOrder_inv (book : OrderBook) (o : Order) (h : BookInv book) :
    BookInv (processOrder book o).1 := by
  by_cases hgate : o.type = OrderType.FOK ∧ ¬ canFOKfill book o
  · rw [processOrder_gate book o hgate]
    exact h
  by_cases ho : o.side = Side.Buy
  · rw [processOrder_buy_eq book o ho hgate]
    set M := matchBuyOrder o book.asks with hM
    obtain ⟨pre, hkeys⟩ := matchBuyOrder_keys_suffix o book.asks
    have hlev := matchBuyOrder_levels o book.asks
    have asksSorted' : M.2.1.Pairwise (fun x y => x.1 < y.1) :=
      pairwise_of_keys_suffix book.asks M.2.1 pre hkeys h.asksSorted
    have asksPrices' : ∀ l ∈ M.2.1, ∀ m ∈ l.2, m.price = l.1 := by
      intro l' hl' m hm
      obtain ⟨l, hl, he, hf⟩ := hlev l' hl'
      obtain ⟨m0, hm0, hp, _⟩ := hf m hm
      rw [hp, h.asksPrices l hl m0 hm0, he]
    have asksLimit' : ∀ l ∈ M.2.1, ∀ m ∈ l.2, m.type = OrderType.Limit := by
      intro l' hl' m hm
      obtain ⟨l, hl, _, hf⟩ := hlev l' hl'
      obtain ⟨m0, hm0, _, hty⟩ := hf m hm
      rw [hty]
      exact h.asksLimit l hl m0 hm0
    have noncross' : ∀ lb ∈ book.bids, ∀ la ∈ M.2.1, lb.1 < la.1 := by
      intro lb hlb la hla
      obtain ⟨l, hl, he, _⟩ := hlev la hla
      rw [he]
      exact h.noncross lb hlb l hl
    split_ifs with hrest
    · -- Limit residual is rested on the bid side
      have hside : M.1.side = Side.Buy := (matchBuyOrder_taker_fields o book.asks).2.2.1.trans ho
      have hprice : M.1.price = o.price := (matchBuyOrder_taker_fields o book.asks).2.2.2.1
      have habove : ∀ la ∈ M.2.1, o.price < la.1 := by
        intro la hla
        cases hM21 : M.2.1 with
        | nil => rw [hM21] at hla; simp at hla
        | cons hd tail =>
          have hbrk := matchBuyOrder_break o book.asks h.asksPrices hrest.1 hd tail hM21
          rw [hM21] at hla asksSorted'
          rcases List.mem_cons.mp hla with rfl | hla
          · exact hbrk.2
          · rcases List.pairwise_cons.mp asksSorted' with ⟨hhd, _⟩
            exact lt_trans hbrk.2 (hhd la hla)
      simp only [addLimitOrder, if_pos hside]
      constructor
      · exact asksSorted'
      · exact insertLevel_pairwise (fun a b => a > b) (fun a b c hab hbc => lt_trans hbc hab)
          (fun a b hab hne => lt_of_le_of_ne (not_lt.mp hab) hne) _ _ _ h.bidsSorted
      · exact asksPrices'
      · exact insertLevel_prices _ _ _ _ h.bidsPrices rfl
      · exact asksLimit'
      · intro l hl m hm
        rcases insertLevel_orders _ _ _ _ l hl m hm with rfl | ⟨l', hl', hm'⟩
        · exact hrest.2
        · exact h.bidsLimit l' hl' m hm'
      · intro lb hlb la hla
        rcases insertLevel_keys _ _ _ _ lb hlb with hkey | hkey
        · rw [hkey, hprice]
          exact habove la hla
        · obtain ⟨lb0, hlb0, he⟩ := List.mem_map.mp hkey
          rw [← he]
          exact noncross' lb0 hlb0 la hla
    · exact ⟨asksSorted', h.bidsSorted, asksPrices', h.bidsPrices, asksLimit', h.bidsLimit,
        noncross'⟩
  · have ho' : o.side = Side.Sell := by
      cases hs : o.side
      · exact absurd hs ho
      · rfl
    rw [processOrder_sell_eq book o ho' hgate]
    set M := matchSellOrder o book.bids with hM
    obtain ⟨pre, hkeys⟩ := matchSellOrder_keys_suffix o book.bids
    have hlev := matchSellOrder_levels o book.bids
    have bidsSorted' : M.2.1.Pairwise (fun x y => x.1 > y.1) :=
      pairwise_of_keys_suffix book.bids M.2.1 pre hkeys h.bidsSorted
    have bidsPrices' : ∀ l ∈ M.2.1, ∀ m ∈ l.2, m.price = l.1 := by
      intro l' hl' m hm
      obtain ⟨l, hl, he, hf⟩ := hlev l' hl'
      obtain ⟨m0, hm0, hp, _⟩ := hf m hm
      rw [hp, h.bidsPrices l hl m0 hm0, he]
    have bidsLimit' : ∀ l ∈ M.2.1, ∀ m ∈ l.2, m.type = OrderType.Limit := by
      intro l' hl' m hm
      obtain ⟨l, hl, _, hf⟩ := hlev l' hl'
      obtain ⟨m0, hm0, _, hty⟩ := hf m hm
      rw [hty]
      exact h.bidsLimit l hl m0 hm0
    have noncross' : ∀ lb ∈ M.2.1, ∀ la ∈ book.asks, lb.1 < la.1 := by
      intro lb hlb la hla
      obtain ⟨l, hl, he, _⟩ := hlev lb hlb
      rw [he]
      exact h.noncross l hl la hla
    split_ifs with hrest
    · have hside : ¬ M.1.side = Side.Buy := by
        rw [(matchSellOrder_taker_fields o book.bids).2.2.1, ho']
        simp
      have hprice : M.1.price = o.price := (matchSellOrder_taker_fields o book.bids).2.2.2.1
      have hbelow : ∀ lb ∈ M.2.1, lb.1 < o.price := by
        intro lb hlb
        cases hM21 : M.2.1 with
        | nil => rw [hM21] at hlb; simp at hlb
        | cons hd tail =>
          have hbrk := matchSellOrder_break o book.bids h.bidsPrices hrest.1 hd tail hM21
          rw [hM21] at hlb bidsSorted'
          rcases List.mem_cons.mp hlb with rfl | hlb
          · exact hbrk.2
          · rcases List.pairwise_cons.mp bidsSorted' with ⟨hhd, _⟩
            exact lt_trans (hhd lb hlb) hbrk.2
      simp only [addLimitOrder, if_neg hside]
      constructor
      · exact insertLevel_pairwise (fun a b => a < b) (fun a b c hab hbc => lt_trans hab hbc)
          (fun a b hab hne => lt_of_le_of_ne (not_lt.mp hab) (Ne.symm hne)) _ _ _ h.asksSorted
      · exact bidsSorted'
      · exact insertLevel_prices _ _ _ _ h.asksPrices rfl
      · exact bidsPrices'
      · intro l hl m hm
        rcases insertLevel_orders _ _ _ _ l hl m hm with rfl | ⟨l', hl', hm'⟩
        · exact hrest.2
        · exact h.asksLimit l' hl' m hm'
      · exact bidsLimit'
      · intro lb hlb la hla
        rcases insertLevel_keys _ _ _ _ la hla with hkey | hkey
        · rw [hkey, hprice]
          exact hbelow lb hlb
        · obtain ⟨la0, hla0, he⟩ := List.mem_map.mp hkey
          rw [← he]
          exact noncross' lb hlb la0 hla0
    · exact ⟨h.asksSorted, bidsSorted', h.asksPrices, bidsPrices', h.asksLimit, bidsLimit',
        fun lb hlb la hla => noncross' lb hlb la hla⟩

/-- The invariant holds for every book reachable from the empty book by a
sequence of `processOrder` calls. -/
theorem processSeq_inv (orders : List Order) : BookInv (processSeq orders) := by
  suffices h : ∀ b, BookInv b →
      BookInv (orders.foldl (fun b o => (processOrder b o).1) b) by
    exact h OrderBook.empty bookInv_empty
  induction orders with
  | nil => exact fun b hb => hb
  | cons o os ih =>
    intro b hb
    exact ih _ (processOrder_inv b o hb)

/-! ### Price bounds for Limit takers -/

theorem matchBuyLevel_price_le (taker : Order) (queue : List Order)
    (ht : taker.type = OrderType.Limit) :
    ∀ t ∈ (matchBuyLevel taker queue).2.2, t.price ≤ taker.price := by
  induction queue generalizing taker with
  | nil => simp [matchBuyLevel]
  | cons maker queue ih =>
    by_cases h1 : taker.quantity > 0
    · by_cases h2 : taker.type = OrderType.Limit ∧ taker.price < maker.price
      · rw [matchBuyLevel_brk taker maker queue h1 h2]
        simp
      · have hple : maker.price ≤ taker.price := by
          rcases not_and_or.mp h2 with h | h
          · exact absurd ht h
          · exact not_lt.mp h
        by_cases h3 : (maker.reduceQuantity (min taker.quantity maker.quantity)).quantity = 0
        · rw [matchBuyLevel_pop taker maker queue h1 h2 h3]
          intro t htm
          rcases List.mem_cons.mp htm with rfl | htm
          · exact hple
          · have := ih (taker.reduceQuantity (min taker.quantity maker.quantity))
              (by simpa using ht) t htm
            simpa using this
        · rw [matchBuyLevel_partfill taker maker queue h1 h2 h3]
          intro t htm
          rcases List.mem_singleton.mp htm with rfl
          exact hple
    · rw [matchBuyLevel_stop taker maker queue h1]
      simp

theorem matchSellLevel_price_ge (taker : Order) (queue : List Order)
    (ht : taker.type = OrderType.Limit) :
    ∀ t ∈ (matchSellLevel taker queue).2.2, taker.price ≤ t.price := by
  induction queue generalizing taker with
  | nil => simp [matchSellLevel]
  | cons maker queue ih =>
    by_cases h1 : taker.quantity > 0
    · by_cases h2 : taker.type = OrderType.Limit ∧ taker.price > maker.price
      · rw [matchSellLevel_brk taker maker queue h1 h2]
        simp
      · have hple : taker.price ≤ maker.price := by
          rcases not_and_or.mp h2 with h | h
          · exact absurd ht h
          · exact not_lt.mp h
        by_cases h3 : (maker.reduceQuantity (min taker.quantity maker.quantity)).quantity = 0
        · rw [matchSellLevel_pop taker maker queue h1 h2 h3]
          intro t htm
          rcases List.mem_cons.mp htm with rfl | htm
          · exact hple
          · have := ih (taker.reduceQuantity (min taker.quantity maker.quantity))
              (by simpa using ht) t htm
            simpa using this
        · rw [matchSellLevel_partfill taker maker queue h1 h2 h3]
          intro t htm
          rcases List.mem_singleton.mp htm with rfl
          exact hple
    · rw [matchSellLevel_stop taker maker queue h1]
      simp

theorem matchBuyOrder_price_le (o : Order) (asks : HalfBook)
    (ht : o.type = OrderType.Limit) :
    ∀ t ∈ (matchBuyOrder o asks).2.2, t.price ≤ o.price := by
  induction asks generalizing o with
  | nil => simp [matchBuyOrder]
  | cons l rest ih =>
    obtain ⟨price, queue⟩ := l
    by_cases h1 : o.quantity > 0
    · by_cases h2 : (matchBuyLevel o queue).1.quantity > 0 ∧ (matchBuyLevel o queue).2.1 = []
      · rw [matchBuyOrder_continue o price queue rest h1 h2]
        intro t htm
        rcases List.mem_append.mp htm with htm | htm
        · exact matchBuyLevel_price_le o queue ht t htm
        · have := ih (matchBuyLevel o queue).1
            ((matchBuyLevel_taker_fields o queue).2.1.trans ht) t htm
          rwa [(matchBuyLevel_taker_fields o queue).2.2.2.1] at this
      · rw [matchBuyOrder_here o price queue rest h1 h2]
        exact matchBuyLevel_price_le o queue ht
    · rw [matchBuyOrder_stop o price queue rest h1]
      simp

theorem matchSellOrder_price_ge (o : Order) (bids : HalfBook)
    (ht : o.type = OrderType.Limit) :
    ∀ t ∈ (matchSellOrder o bids).2.2, o.price ≤ t.price := by
  induction bids generalizing o with
  | nil => simp [matchSellOrder]
  | cons l rest ih =>
    obtain ⟨price, queue⟩ := l
    by_cases h1 : o.quantity > 0
    · by_cases h2 : (matchSellLevel o queue).1.quantity > 0 ∧ (matchSellLevel o queue).2.1 = []
      · rw [matchSellOrder_continue o price queue rest h1 h2]
        intro t htm
        rcases List.mem_append.mp htm with htm | htm
        · exact matchSellLevel_price_ge o queue ht t htm
        · have := ih (matchSellLevel o queue).1
            ((matchSellLevel_taker_fields o queue).2.1.trans ht) t htm
          rwa [(matchSellLevel_taker_fields o queue).2.2.2.1] at this
      · rw [matchSellOrder_here o price queue rest h1 h2]
        exact matchSellLevel_price_ge o queue ht
    · rw [matchSellOrder_stop o price queue rest h1]
      simp

/-- `tradesMatchMakers` forces the maker ids of the batch to be an in-order
prefix of the maker list's ids. -/
theorem tradesMatchMakers_ids (tq : ℚ) (ts : List Trade) (ms : List Order)
    (h : tradesMatchMakers tq ts ms) :
    ∃ rest, ms.map Order.orderID = ts.map Trade.makerOrderID ++ rest := by
  induction ts generalizing tq ms with
  | nil => exact ⟨ms.map Order.orderID, by simp⟩
  | cons t ts ih =>
    cases ms with
    | nil => exact absurd h (by simp [tradesMatchMakers])
    | cons m ms =>
      obtain ⟨hid, _, _, hrest⟩ := h
      obtain ⟨rest, hr⟩ := ih _ _ hrest
      exact ⟨rest, by simp [hid, hr]⟩

/-! ### Constructor disequalities (used when evaluating concrete scenarios) -/

@[simp]
theorem ioc_ne_limit : (OrderType.IOC = OrderType.Limit) = False := by
  simp only [eq_iff_iff, iff_false]
  exact fun h => by cases h

@[simp]
theorem ioc_ne_fok : (OrderType.IOC = OrderType.FOK) = False := by
  simp only [eq_iff_iff, iff_false]
  exact fun h => by cases h

@[simp]
theorem fok_ne_limit : (OrderType.FOK = OrderType.Limit) = False := by
  simp only [eq_iff_iff, iff_false]
  exact fun h => by cases h

@[simp]
theorem limit_ne_fok : (OrderType.Limit = OrderType.FOK) = False := by
  simp only [eq_iff_iff, iff_false]
  exact fun h => by cases h

@[simp]
theorem market_ne_limit : (OrderType.Market = OrderType.Limit) = False := by
  simp only [eq_iff_iff, iff_false]
  exact fun h => by cases h

@[simp]
theorem market_ne_fok : (OrderType.Market = OrderType.FOK) = False := by
  simp only [eq_iff_iff, iff_false]
  exact fun h => by cases h

@[simp]
theorem sell_ne_buy : (Side.Sell = Side.Buy) = False := by
  simp only [eq_iff_iff, iff_false]
  exact fun h => by cases h

@[simp]
theorem buy_ne_sell : (Side.Buy = Side.Sell) = False := by
  simp only [eq_iff_iff, iff_false]
  exact fun h => by cases h

theorem side_not_buy (o : Order) (h : ¬ o.side = Side.Buy) : o.side = Side.Sell := by
  cases hs : o.side
  · exact absurd hs h
  · rfl

/-! ### Claim theorems -/

theorem processOrder_nonpos (book : OrderBook) (o : Order) (h1 : ¬ o.quantity > 0) :
    processOrder book o = (book, []) := by
  by_cases hgate : o.type = OrderType.FOK ∧ ¬ canFOKfill book o
  · exact processOrder_gate book o hgate
  · by_cases ho : o.side = Side.Buy
    · rw [processOrder_buy_eq book o ho hgate, matchBuyOrder_nonpos o book.asks h1]
      simp [h1]
    · rw [processOrder_sell_eq book o (side_not_buy o ho) hgate,
        matchSellOrder_nonpos o book.bids h1]
      simp [h1]

/-- C10: for an order whose quantity is `≤ 0` (outside the documented
positive-quantity precondition), `processOrder` returns an empty trade list
and leaves the book completely unchanged: the matching loop never runs and
the order is never rested. -/
theorem C10_nonpositive_quantity (book : OrderBook) (o : Order) (h : o.quantity ≤ 0) :
    processOrder book o = (book, []) :=
  processOrder_nonpos book o (not_lt.mpr h)

/-- C10 witness: a Limit buy with quantity 0 is a no-op on the empty book. -/
theorem C10_witness :
    (⟨1, OrderType.Limit, Side.Buy, 10, 0, "S"⟩ : Order).quantity ≤ 0 ∧
    processOrder OrderBook.empty ⟨1, OrderType.Limit, Side.Buy, 10, 0, "S"⟩ =
      (OrderBook.empty, []) :=
  ⟨by norm_num, C10_nonpositive_quantity OrderBook.empty _ (by norm_num)⟩

/-- C5: one engine ingest emits at most one depth event, and emits it exactly
when the serialized top-10 depth of either side after `processOrder` differs
from the one captured before it. -/
theorem C5_depth_event_iff (books : List (String × OrderBook)) (o : Order) :
    ((MatchingEngine.process books o).2.depthEvents = 1 ↔
      getBookDepthAsJson 10 Side.Sell (findBook books o.symbol) ≠
        getBookDepthAsJson 10 Side.Sell (processOrder (findBook books o.symbol) o).1 ∨
      getBookDepthAsJson 10 Side.Buy (findBook books o.symbol) ≠
        getBookDepthAsJson 10 Side.Buy (processOrder (findBook books o.symbol) o).1) ∧
    (MatchingEngine.process books o).2.depthEvents ≤ 1 := by
  simp only [MatchingEngine.process]
  split_ifs with h
  · refine ⟨?_, by norm_num⟩
    simp only [eq_self_iff_true, true_iff]
    exact h
  · refine ⟨?_, by norm_num⟩
    constructor
    · intro hx
      exact absurd hx (by norm_num)
    · intro hx
      exact absurd hx h

/-- C9: `processOrder` never touches the taker's own side of the book for
Market/IOC/FOK orders; a Limit taker leaves its side unchanged or extends it
by exactly its own residual at its own price. -/
theorem C9_taker_side_frame (book : OrderBook) (o : Order) :
    (o.side = Side.Buy → o.type ≠ OrderType.Limit →
      (processOrder book o).1.bids = book.bids) ∧
    (o.side = Side.Sell → o.type ≠ OrderType.Limit →
      (processOrder book o).1.asks = book.asks) ∧
    (o.side = Side.Buy → o.type = OrderType.Limit →
      (processOrder book o).1.bids = book.bids ∨
      ∃ r : Order, r.orderID = o.orderID ∧ r.price = o.price ∧ r.type = OrderType.Limit ∧
        0 < r.quantity ∧
        (processOrder book o).1.bids = insertLevel (fun a b => a > b) o.price r book.bids) ∧
    (o.side = Side.Sell → o.type = OrderType.Limit →
      (processOrder book o).1.asks = book.asks ∨
      ∃ r : Order, r.orderID = o.orderID ∧ r.price = o.price ∧ r.type = OrderType.Limit ∧
        0 < r.quantity ∧
        (processOrder book o).1.asks = insertLevel (fun a b => a < b) o.price r book.asks) := by
  refine ⟨?_, ?_, ?_, ?_⟩
  · intro ho ht
    by_cases hgate : o.type = OrderType.FOK ∧ ¬ canFOKfill book o
    · rw [processOrder_gate book o hgate]
    · rw [processOrder_buy_eq book o ho hgate]
      have hty : (matchBuyOrder o book.asks).1.type = o.type :=
        (matchBuyOrder_taker_fields o book.asks).2.1
      rw [if_neg (fun hc => ht (hty ▸ hc.2))]
  · intro ho ht
    by_cases hgate : o.type = OrderType.FOK ∧ ¬ canFOKfill book o
    · rw [processOrder_gate book o hgate]
    · rw [processOrder_sell_eq book o ho hgate]
      have hty : (matchSellOrder o book.bids).1.type = o.type :=
        (matchSellOrder_taker_fields o book.bids).2.1
      rw [if_neg (fun hc => ht (hty ▸ hc.2))]
  · intro ho ht
    have hgate : ¬ (o.type = OrderType.FOK ∧ ¬ canFOKfill book o) := by
      rw [ht]
      simp
    rw [processOrder_buy_eq book o ho hgate]
    by_cases hrest : (matchBuyOrder o book.asks).1.quantity > 0 ∧
        (matchBuyOrder o book.asks).1.type = OrderType.Limit
    · right
      have hside : (matchBuyOrder o book.asks).1.side = Side.Buy :=
        (matchBuyOrder_taker_fields o book.asks).2.2.1.trans ho
      have hprice : (matchBuyOrder o book.asks).1.price = o.price :=
        (matchBuyOrder_taker_fields o book.asks).2.2.2.1
      refine ⟨(matchBuyOrder o book.asks).1, (matchBuyOrder_taker_fields o book.asks).1,
        hprice, hrest.2, hrest.1, ?_⟩
      rw [if_pos hrest]
      simp only [addLimitOrder, if_pos hside, hprice]
    · left
      rw [if_neg hrest]
  · intro ho ht
    have hgate : ¬ (o.type = OrderType.FOK ∧ ¬ canFOKfill book o) := by
      rw [ht]
      simp
    rw [processOrder_sell_eq book o ho hgate]
    by_cases hrest : (matchSellOrder o book.bids).1.quantity > 0 ∧
        (matchSellOrder o book.bids).1.type = OrderType.Limit
    · right
      have hside : ¬ (matchSellOrder o book.bids).1.side = Side.Buy := by
        rw [(matchSellOrder_taker_fields o book.bids).2.2.1, ho]
        simp
      have hprice : (matchSellOrder o book.bids).1.price = o.price :=
        (matchSellOrder_taker_fields o book.bids).2.2.2.1
      refine ⟨(matchSellOrder o book.bids).1, (matchSellOrder_taker_fields o book.bids).1,
        hprice, hrest.2, hrest.1, ?_⟩
      rw [if_pos hrest]
      simp only [addLimitOrder, if_neg hside, hprice]
    · left
      rw [if_neg hrest]

/-- C9 witness: an IOC buy against the empty book leaves the bid side
untouched. -/
theorem C9_witness :
    (⟨1, OrderType.IOC, Side.Buy, 50, 5, "S"⟩ : Order).side = Side.Buy ∧
    (processOrder OrderBook.empty ⟨1, OrderType.IOC, Side.Buy, 50, 5, "S"⟩).1.bids =
      OrderBook.empty.bids :=
  ⟨rfl, (C9_taker_side_frame OrderBook.empty _).1 rfl (by simp)⟩

/-- C4: after any sequence of ingested orders on a book starting empty, every
bid level is priced strictly below every ask level — in particular, whenever
both sides are non-empty, the maximum bid price is strictly less than the
minimum ask price. -/
theorem C4_no_crossed_book (orders : List Order) :
    ∀ lb ∈ (processSeq orders).bids, ∀ la ∈ (processSeq orders).asks, lb.1 < la.1 :=
  (processSeq_inv orders).noncross

/-- C4 witness: after resting a bid at 50 and an ask at 60, the book holds
both levels and 50 < 60. -/
theorem C4_witness :
    ((50 : ℚ), [(⟨1, OrderType.Limit, Side.Buy, 50, 1, "S"⟩ : Order)]) ∈
      (processSeq [⟨1, OrderType.Limit, Side.Buy, 50, 1, "S"⟩,
        ⟨2, OrderType.Limit, Side.Sell, 60, 1, "S"⟩]).bids ∧
    ((60 : ℚ), [(⟨2, OrderType.Limit, Side.Sell, 60, 1, "S"⟩ : Order)]) ∈
      (processSeq [⟨1, OrderType.Limit, Side.Buy, 50, 1, "S"⟩,
        ⟨2, OrderType.Limit, Side.Sell, 60, 1, "S"⟩]).asks ∧
    (((50 : ℚ), [(⟨1, OrderType.Limit, Side.Buy, 50, 1, "S"⟩ : Order)]) : Level).1 <
      (((60 : ℚ), [(⟨2, OrderType.Limit, Side.Sell, 60, 1, "S"⟩ : Order)]) : Level).1 :=
  ⟨by norm_num [processSeq, processOrder, canFOKfill, fokScan, queueQty, matchBuyOrder,
      matchSellOrder, matchBuyLevel, matchSellLevel, Order.reduceQuantity, min_def,
      addLimitOrder, insertLevel, OrderBook.empty],
   by norm_num [processSeq, processOrder, canFOKfill, fokScan, queueQty, matchBuyOrder,
      matchSellOrder, matchBuyLevel, matchSellLevel, Order.reduceQuantity, min_def,
      addLimitOrder, insertLevel, OrderBook.empty],
   C4_no_crossed_book [⟨1, OrderType.Limit, Side.Buy, 50, 1, "S"⟩,
      ⟨2, OrderType.Limit, Side.Sell, 60, 1, "S"⟩] _
    (by norm_num [processSeq, processOrder, canFOKfill, fokScan, queueQty, matchBuyOrder,
      matchSellOrder, matchBuyLevel, matchSellLevel, Order.reduceQuantity, min_def,
      addLimitOrder, insertLevel, OrderBook.empty]) _
    (by norm_num [processSeq, processOrder, canFOKfill, fokScan, queueQty, matchBuyOrder,
      matchSellOrder, matchBuyLevel, matchSellLevel, Order.reduceQuantity, min_def,
      addLimitOrder, insertLevel, OrderBook.empty])⟩

/-- C3: an FOK order either produces trades summing to exactly its quantity,
or produces zero trades and leaves the book identical to its pre-state
(assuming resting quantities are non-negative, as the book invariant
guarantees). -/
theorem C3_fok_atomicity (book : OrderBook) (o : Order) (ho : o.type = OrderType.FOK)
    (hqa : ∀ l ∈ book.asks, ∀ m ∈ l.2, 0 ≤ m.quantity)
    (hqb : ∀ l ∈ book.bids, ∀ m ∈ l.2, 0 ≤ m.quantity) :
    ((processOrder book o).2.map Trade.quantity).sum = o.quantity ∨
    ((processOrder book o).2 = [] ∧ (processOrder book o).1 = book) := by
  have htl : o.type ≠ OrderType.Limit := by
    rw [ho]
    simp
  by_cases hck : canFOKfill book o = true
  · have hgate : ¬ (o.type = OrderType.FOK ∧ ¬ canFOKfill book o) := fun hc => hc.2 hck
    by_cases hq0 : 0 < o.quantity
    · left
      by_cases hside : o.side = Side.Buy
      · have htot := (canFOKfill_fok book o ho (by rw [if_pos hside]; exact hqa)).mp hck
        rw [if_pos hside] at htot
        have hsum := matchBuyOrder_sum_nonlimit o book.asks htl (le_of_lt hq0) hqa
        rw [processOrder_buy_eq book o hside hgate]
        show ((matchBuyOrder o book.asks).2.2.map Trade.quantity).sum = o.quantity
        rw [hsum]
        exact min_eq_left htot
      · have hside' : o.side = Side.Sell := side_not_buy o hside
        have htot := (canFOKfill_fok book o ho (by rw [if_neg hside]; exact hqb)).mp hck
        rw [if_neg hside] at htot
        have hsum := matchSellOrder_sum_nonlimit o book.bids htl (le_of_lt hq0) hqb
        rw [processOrder_sell_eq book o hside' hgate]
        show ((matchSellOrder o book.bids).2.2.map Trade.quantity).sum = o.quantity
        rw [hsum]
        exact min_eq_left htot
    · right
      rw [processOrder_nonpos book o hq0]
      exact ⟨rfl, rfl⟩
  · right
    rw [processOrder_gate book o ⟨ho, hck⟩]
    exact ⟨rfl, rfl⟩

/-- C3 witness: an FOK buy for 6 against a lone ask of 3 is rejected whole:
no trades, book unchanged. -/
theorem C3_witness :
    (⟨2, OrderType.FOK, Side.Buy, 101, 6, "S"⟩ : Order).type = OrderType.FOK ∧
    (((processOrder ⟨[], [(100, [⟨1, OrderType.Limit, Side.Sell, 100, 3, "S"⟩])]⟩
        ⟨2, OrderType.FOK, Side.Buy, 101, 6, "S"⟩).2.map Trade.quantity).sum =
        (⟨2, OrderType.FOK, Side.Buy, 101, 6, "S"⟩ : Order).quantity ∨
      ((processOrder ⟨[], [(100, [⟨1, OrderType.Limit, Side.Sell, 100, 3, "S"⟩])]⟩
        ⟨2, OrderType.FOK, Side.Buy, 101, 6, "S"⟩).2 = [] ∧
       (processOrder ⟨[], [(100, [⟨1, OrderType.Limit, Side.Sell, 100, 3, "S"⟩])]⟩
        ⟨2, OrderType.FOK, Side.Buy, 101, 6, "S"⟩).1 =
        ⟨[], [(100, [⟨1, OrderType.Limit, Side.Sell, 100, 3, "S"⟩])]⟩)) :=
  ⟨rfl, C3_fok_atomicity _ _ rfl (by norm_num) (by norm_num)⟩

/-- C2 counterexample: with asks `{100: qty 5, 200: qty 5}`, the quantity on
levels eligible under an FOK buy limit of 100 is 5, strictly less than the
order quantity 10 — the claim then demands zero trades — yet `processOrder`
fully fills the order, sweeping the ineligible 200 level as well: the
pre-check never applies the price filter for an FOK order. -/
theorem C2_counterexample :
    (((⟨[], [(100, [⟨1, OrderType.Limit, Side.Sell, 100, 5, "S"⟩]),
        (200, [⟨2, OrderType.Limit, Side.Sell, 200, 5, "S"⟩])]⟩ : OrderBook).asks.filter
        (fun l => decide (l.1 ≤ (⟨3, OrderType.FOK, Side.Buy, 100, 10, "S"⟩ : Order).price))).map
        (fun l => queueQty l.2)).sum <
      (⟨3, OrderType.FOK, Side.Buy, 100, 10, "S"⟩ : Order).quantity ∧
    (processOrder ⟨[], [(100, [⟨1, OrderType.Limit, Side.Sell, 100, 5, "S"⟩]),
        (200, [⟨2, OrderType.Limit, Side.Sell, 200, 5, "S"⟩])]⟩
      ⟨3, OrderType.FOK, Side.Buy, 100, 10, "S"⟩).2.map Trade.price = [100, 200] := by
  constructor
  · norm_num [List.filter, queueQty]
  · norm_num [processOrder, canFOKfill, fokScan, queueQty, matchBuyOrder, matchBuyLevel,
      Order.reduceQuantity, min_def, addLimitOrder, insertLevel]

/-- C2 amended: `canFOKfill` counts the cumulative resting quantity of the
whole opposite side — with no price eligibility filter, because the filter is
guarded by `type = Limit`, which an FOK order never satisfies — and the order
is rejected with zero trades and zero state change exactly when that total is
strictly less than its quantity. -/
theorem C2_fok_precheck (book : OrderBook) (o : Order) (ho : o.type = OrderType.FOK)
    (hq : ∀ l ∈ (if o.side = Side.Buy then book.asks else book.bids),
      ∀ m ∈ l.2, 0 ≤ m.quantity) :
    (canFOKfill book o = true ↔
      o.quantity ≤ totalQty (if o.side = Side.Buy then book.asks else book.bids)) ∧
    (¬ o.quantity ≤ totalQty (if o.side = Side.Buy then book.asks else book.bids) →
      processOrder book o = (book, [])) := by
  refine ⟨canFOKfill_fok book o ho hq, fun hlt => processOrder_gate book o ⟨ho, ?_⟩⟩
  rw [canFOKfill_fok book o ho hq]
  exact hlt

/-- C2 witness: an FOK buy for 10 against total opposite quantity 5 is
rejected whole. -/
theorem C2_witness :
    processOrder ⟨[], [(100, [⟨1, OrderType.Limit, Side.Sell, 100, 5, "S"⟩])]⟩
      ⟨2, OrderType.FOK, Side.Buy, 100, 10, "S"⟩ =
    (⟨[], [(100, [⟨1, OrderType.Limit, Side.Sell, 100, 5, "S"⟩])]⟩, []) :=
  (C2_fok_precheck _ _ rfl (by norm_num)).2 (by norm_num [totalQty, queueQty])

/-- C1 counterexample: an IOC buy limited to 50 against a lone ask at 100
still trades (at 100): the matching loop's price break tests only
`type = Limit`, so an IOC taker is not stopped by its limit price. -/
theorem C1_counterexample :
    (⟨2, OrderType.IOC, Side.Buy, 50, 3, "S"⟩ : Order).type = OrderType.IOC ∧
    (processOrder ⟨[], [(100, [⟨1, OrderType.Limit, Side.Sell, 100, 5, "S"⟩])]⟩
        ⟨2, OrderType.IOC, Side.Buy, 50, 3, "S"⟩).2 ≠ [] ∧
    ∀ t ∈ (processOrder ⟨[], [(100, [⟨1, OrderType.Limit, Side.Sell, 100, 5, "S"⟩])]⟩
        ⟨2, OrderType.IOC, Side.Buy, 50, 3, "S"⟩).2,
      (⟨2, OrderType.IOC, Side.Buy, 50, 3, "S"⟩ : Order).price < t.price := by
  refine ⟨rfl, ?_, ?_⟩ <;>
    norm_num [processOrder, canFOKfill, fokScan, queueQty, matchBuyOrder, matchBuyLevel,
      Order.reduceQuantity, min_def, addLimitOrder, insertLevel]

/-- C1 amended: only a Limit taker is price-constrained — its trades never
cross its limit price; an IOC or FOK taker matches with no price constraint
at all, exactly like Market: while still hungry it only stops when the
opposite side has been emptied. -/
theorem C1_price_constraint (o : Order) (hb : HalfBook) :
    (o.type = OrderType.Limit →
      (∀ t ∈ (matchBuyOrder o hb).2.2, t.price ≤ o.price) ∧
      (∀ t ∈ (matchSellOrder o hb).2.2, o.price ≤ t.price)) ∧
    (o.type = OrderType.IOC ∨ o.type = OrderType.FOK →
      (0 < (matchBuyOrder o hb).1.quantity → (matchBuyOrder o hb).2.1 = []) ∧
      (0 < (matchSellOrder o hb).1.quantity → (matchSellOrder o hb).2.1 = [])) := by
  constructor
  · intro ht
    exact ⟨matchBuyOrder_price_le o hb ht, matchSellOrder_price_ge o hb ht⟩
  · intro ht
    have htl : o.type ≠ OrderType.Limit := by
      rcases ht with h | h <;> rw [h] <;> simp
    exact ⟨matchBuyOrder_nonlimit_hungry o hb htl, matchSellOrder_nonlimit_hungry o hb htl⟩

/-- C1 witness: a Limit buy at 101 against an ask at 100 trades only at or
below its limit. -/
theorem C1_witness :
    (⟨2, OrderType.Limit, Side.Buy, 101, 4, "S"⟩ : Order).type = OrderType.Limit ∧
    ∀ t ∈ (matchBuyOrder ⟨2, OrderType.Limit, Side.Buy, 101, 4, "S"⟩
      [(100, [⟨1, OrderType.Limit, Side.Sell, 100, 10, "S"⟩])]).2.2,
      t.price ≤ (⟨2, OrderType.Limit, Side.Buy, 101, 4, "S"⟩ : Order).price :=
  ⟨rfl, ((C1_price_constraint ⟨2, OrderType.Limit, Side.Buy, 101, 4, "S"⟩
    [(100, [⟨1, OrderType.Limit, Side.Sell, 100, 10, "S"⟩])]).1 rfl).1⟩

/-- C6: price-time priority: the maker ids of the emitted trades form an
in-order prefix of the flattened opposite side (best price level first, FIFO
inside each level), so a counterparty sweeping a level fills the earlier
resting order first. -/
theorem C6_price_time_priority (book : OrderBook) (o : Order) :
    (o.side = Side.Buy → ∃ rest, (flattenBook book.asks).map Order.orderID =
      ((processOrder book o).2.map Trade.makerOrderID) ++ rest) ∧
    (o.side = Side.Sell → ∃ rest, (flattenBook book.bids).map Order.orderID =
      ((processOrder book o).2.map Trade.makerOrderID) ++ rest) := by
  constructor
  · intro ho
    by_cases hgate : o.type = OrderType.FOK ∧ ¬ canFOKfill book o
    · rw [processOrder_gate book o hgate]
      exact ⟨(flattenBook book.asks).map Order.orderID, by simp⟩
    · rw [processOrder_buy_eq book o ho hgate]
      exact tradesMatchMakers_ids o.quantity _ _ (matchBuyOrder_spec o book.asks)
  · intro ho
    by_cases hgate : o.type = OrderType.FOK ∧ ¬ canFOKfill book o
    · rw [processOrder_gate book o hgate]
      exact ⟨(flattenBook book.bids).map Order.orderID, by simp⟩
    · rw [processOrder_sell_eq book o ho hgate]
      exact tradesMatchMakers_ids o.quantity _ _ (matchSellOrder_spec o book.bids)

/-- C6 witness: two resting asks at the same price (ids 1 then 2) are swept
in FIFO order by a buy for 7. -/
theorem C6_witness :
    ∃ rest, (flattenBook (⟨[], [(100, [⟨1, OrderType.Limit, Side.Sell, 100, 5, "S"⟩,
        ⟨2, OrderType.Limit, Side.Sell, 100, 5, "S"⟩])]⟩ : OrderBook).asks).map Order.orderID =
      ((processOrder ⟨[], [(100, [⟨1, OrderType.Limit, Side.Sell, 100, 5, "S"⟩,
        ⟨2, OrderType.Limit, Side.Sell, 100, 5, "S"⟩])]⟩
        ⟨3, OrderType.Limit, Side.Buy, 100, 7, "S"⟩).2.map Trade.makerOrderID) ++ rest :=
  (C6_price_time_priority ⟨[], [(100, [⟨1, OrderType.Limit, Side.Sell, 100, 5, "S"⟩,
      ⟨2, OrderType.Limit, Side.Sell, 100, 5, "S"⟩])]⟩
    ⟨3, OrderType.Limit, Side.Buy, 100, 7, "S"⟩).1 rfl

/-- C7: every trade of a `processOrder` call carries the resting maker's
price and id, and trades `min(taker remaining, maker resting quantity)` —
the whole batch satisfies `tradesMatchMakers` against the pre-call opposite
side in consumption order. -/
theorem C7_maker_pricing (book : OrderBook) (o : Order) :
    (o.side = Side.Buy →
      tradesMatchMakers o.quantity (processOrder book o).2 (flattenBook book.asks)) ∧
    (o.side = Side.Sell →
      tradesMatchMakers o.quantity (processOrder book o).2 (flattenBook book.bids)) := by
  constructor
  · intro ho
    by_cases hgate : o.type = OrderType.FOK ∧ ¬ canFOKfill book o
    · rw [processOrder_gate book o hgate]
      exact trivial
    · rw [processOrder_buy_eq book o ho hgate]
      exact matchBuyOrder_spec o book.asks
  · intro ho
    by_cases hgate : o.type = OrderType.FOK ∧ ¬ canFOKfill book o
    · rw [processOrder_gate book o hgate]
      exact trivial
    · rw [processOrder_sell_eq book o ho hgate]
      exact matchSellOrder_spec o book.bids

/-- C7 witness: a buy for 4 against a resting ask of 10 at 100 trades at the
maker price 100 for `min(4, 10) = 4`. -/
theorem C7_witness :
    tradesMatchMakers (⟨2, OrderType.Limit, Side.Buy, 101, 4, "S"⟩ : Order).quantity
      (processOrder ⟨[], [(100, [⟨1, OrderType.Limit, Side.Sell, 100, 10, "S"⟩])]⟩
        ⟨2, OrderType.Limit, Side.Buy, 101, 4, "S"⟩).2
      (flattenBook (⟨[], [(100, [⟨1, OrderType.Limit, Side.Sell, 100, 10, "S"⟩])]⟩ :
        OrderBook).asks) :=
  (C7_maker_pricing ⟨[], [(100, [⟨1, OrderType.Limit, Side.Sell, 100, 10, "S"⟩])]⟩
    ⟨2, OrderType.Limit, Side.Buy, 101, 4, "S"⟩).1 rfl

/-- C8: residual disposal by type: a reachable book holds only Limit orders
(Market/IOC/FOK never rest), and a Limit taker with positive residual has
that residual appended to the tail of the queue at its price level, the
level being created if absent. -/
theorem C8_residual_disposal (orders : List Order) (book : OrderBook) (o : Order) :
    (∀ l, (l ∈ (processSeq orders).bids ∨ l ∈ (processSeq orders).asks) →
      ∀ m ∈ l.2, m.type = OrderType.Limit) ∧
    (o.type = OrderType.Limit → o.side = Side.Buy →
      book.bids.Pairwise (fun x y => x.1 > y.1) →
      0 < (matchBuyOrder o book.asks).1.quantity →
      findQueue (processOrder book o).1.bids o.price =
        findQueue book.bids o.price ++ [(matchBuyOrder o book.asks).1]) ∧
    (o.type = OrderType.Limit → o.side = Side.Sell →
      book.asks.Pairwise (fun x y => x.1 < y.1) →
      0 < (matchSellOrder o book.bids).1.quantity →
      findQueue (processOrder book o).1.asks o.price =
        findQueue book.asks o.price ++ [(matchSellOrder o book.bids).1]) := by
  refine ⟨?_, ?_, ?_⟩
  · intro l hl m hm
    rcases hl with hl | hl
    · exact (processSeq_inv orders).bidsLimit l hl m hm
    · exact (processSeq_inv orders).asksLimit l hl m hm
  · intro ht ho hsorted hq
    have hgate : ¬ (o.type = OrderType.FOK ∧ ¬ canFOKfill book o) := by
      rw [ht]
      simp
    rw [processOrder_buy_eq book o ho hgate]
    have hty : (matchBuyOrder o book.asks).1.type = OrderType.Limit :=
      (matchBuyOrder_taker_fields o book.asks).2.1.trans ht
    have hside : (matchBuyOrder o book.asks).1.side = Side.Buy :=
      (matchBuyOrder_taker_fields o book.asks).2.2.1.trans ho
    have hprice : (matchBuyOrder o book.asks).1.price = o.price :=
      (matchBuyOrder_taker_fields o book.asks).2.2.2.1
    rw [if_pos ⟨hq, hty⟩]
    show findQueue (addLimitOrder _ (matchBuyOrder o book.asks).1).bids o.price = _
    simp only [addLimitOrder, if_pos hside, hprice]
    exact insertLevel_findQueue (fun a b => a > b) (fun a b c hab hbc => lt_trans hbc hab)
      (fun a => lt_irrefl a) o.price (matchBuyOrder o book.asks).1 book.bids hsorted
  · intro ht ho hsorted hq
    have hgate : ¬ (o.type = OrderType.FOK ∧ ¬ canFOKfill book o) := by
      rw [ht]
      simp
    rw [processOrder_sell_eq book o ho hgate]
    have hty : (matchSellOrder o book.bids).1.type = OrderType.Limit :=
      (matchSellOrder_taker_fields o book.bids).2.1.trans ht
    have hside : ¬ (matchSellOrder o book.bids).1.side = Side.Buy := by
      rw [(matchSellOrder_taker_fields o book.bids).2.2.1, ho]
      simp
    have hprice : (matchSellOrder o book.bids).1.price = o.price :=
      (matchSellOrder_taker_fields o book.bids).2.2.2.1
    rw [if_pos ⟨hq, hty⟩]
    show findQueue (addLimitOrder _ (matchSellOrder o book.bids).1).asks o.price = _
    simp only [addLimitOrder, if_neg hside, hprice]
    exact insertLevel_findQueue (fun a b => a < b) (fun a b c hab hbc => lt_trans hab hbc)
      (fun a => lt_irrefl a) o.price (matchSellOrder o book.bids).1 book.asks hsorted

/-- C8 witness: a Limit buy for 5 at 50 into the empty book rests whole as
the single queue entry at its freshly created price level. -/
theorem C8_witness :
    (⟨1, OrderType.Limit, Side.Buy, 50, 5, "S"⟩ : Order).type = OrderType.Limit ∧
    0 < (matchBuyOrder ⟨1, OrderType.Limit, Side.Buy, 50, 5, "S"⟩
      OrderBook.empty.asks).1.quantity ∧
    findQueue (processOrder OrderBook.empty ⟨1, OrderType.Limit, Side.Buy, 50, 5, "S"⟩).1.bids
        (⟨1, OrderType.Limit, Side.Buy, 50, 5, "S"⟩ : Order).price =
      findQueue OrderBook.empty.bids
          (⟨1, OrderType.Limit, Side.Buy, 50, 5, "S"⟩ : Order).price ++
        [(matchBuyOrder ⟨1, OrderType.Limit, Side.Buy, 50, 5, "S"⟩ OrderBook.empty.asks).1] :=
  ⟨rfl, by norm_num [matchBuyOrder, OrderBook.empty],
   (C8_residual_disposal [] OrderBook.empty _).2.1 rfl rfl (by simp [OrderBook.empty])
     (by norm_num [matchBuyOrder, OrderBook.empty])⟩

end Crypto
